import Mathlib

/-
  Verification development for the audio steganography tool
  (LSB embedding into PCM samples, Vigenere-256 stream cipher,
  length-prefixed STEG container, parameter-auto-detecting extraction,
  MPEG frame scanning).

  Modelling conventions:
  * Python `bytes` values are `List Nat` (each element < 256 where it matters);
  * bit streams are `List Nat` with elements in {0,1};
  * PCM samples (numpy int16 arrays) are `List Int`;
  * a Python function that can raise is modelled with the explicit result
    type `PRes`; the error kind records which exception class is raised.
  * Python bitwise operations on unbounded ints are translated to explicit
    modular arithmetic (`x & (2^n - 1)` is `x % 2^n`, also for negative `x`
    under two's-complement semantics, which is what Python implements).
-/

/-- Kinds of Python exceptions the modelled code can raise.  `valueError`
covers `ValueError` and its subclasses (hence also `UnicodeDecodeError`);
`structError` is the `struct.error` raised by `struct.pack`/`unpack`,
which derives from `Exception` directly and is not a `ValueError`. -/
inductive PyErr where
  | valueError
  | structError
  | indexError
  | capacityError
  | extractError
deriving DecidableEq

/-- Result of a Python call: either a raised exception or a value. -/
inductive PRes (α : Type) where
  | error (e : PyErr)
  | ok (a : α)
deriving DecidableEq

/-- Sequencing of Python calls: an exception raised by the first call
propagates past the second. -/
def PRes.bind {α β : Type} : PRes α → (α → PRes β) → PRes β
  | .error e, _ => .error e
  | .ok a, f => f a

/-! ## BitStream adapter (src/src/stego/bitops.py) -/

/-- Model of the inner loop of `bits_from_bytes`: one byte's bits, most
significant first (`for i in range(7,-1,-1): yield (b >> i) & 1`). -/
def byteBits (b : Nat) : List Nat :=
  (List.range 8).map fun i => (b >>> (7 - i)) &&& 1

/-- Model of `bits_from_bytes` (src/src/stego/bitops.py): the byte
sequence as a bit stream, MSB first within each byte. -/
def bits_from_bytes (data : List Nat) : List Nat :=
  data.flatMap byteBits

/-- Model of the accumulator loop `cur = (cur << 1) | (bit & 1)` used by
`bytes_from_bits` to pack one group of bits MSB-first. -/
def byteOf (g : List Nat) : Nat :=
  g.foldl (fun cur bit => (cur <<< 1) ||| (bit &&& 1)) 0

/-- Model of `bytes_from_bits` (src/src/stego/bitops.py): packs bits eight
at a time MSB-first (`out.append(cur)` each time `cnt` reaches 8); a final
group of fewer than eight bits is left-shifted into the high bits of the
last byte (`out.append(cur << (8-cnt))`); no trailing byte for an exact
multiple of eight. -/
def bytes_from_bits : List Nat → List Nat
  | [] => []
  | b0 :: b1 :: b2 :: b3 :: b4 :: b5 :: b6 :: b7 :: rest =>
    byteOf [b0, b1, b2, b3, b4, b5, b6, b7] :: bytes_from_bits rest
  | tail => [byteOf tail <<< (8 - tail.length)]

/-! ## Stream cipher (src/src/stego/crypto.py and src/src/core/vigenere256.py) -/

/-- Model of `_keystream` (src/src/stego/crypto.py): repeat `key` until at
least `n` bytes are available, truncate to `n`; an empty key yields an
empty keystream.  The while-loop appends whole copies of `key` until the
length reaches `n`, so `n / len(key) + 1` copies always suffice. -/
def _keystream (key : List Nat) (n : Nat) : List Nat :=
  if key = [] then []
  else ((List.replicate (n / key.length + 1) key).flatten).take n

/-- Model of `vigenere256_encrypt` (src/src/stego/crypto.py):
`bytes(((d + ks[i]) & 0xFF) for i, d in enumerate(data))`.  The subscript
`ks[i]` raises `IndexError` as soon as `i` reaches `len(ks)`, which happens
exactly when the keystream is shorter than `data` (empty key, non-empty
data); otherwise the result is the elementwise sum mod 256. -/
def vigenere256_encrypt (data key : List Nat) : PRes (List Nat) :=
  let ks := _keystream key data.length
  if data.length ≤ ks.length then
    .ok (data.zipWith (fun d k => (d + k) &&& 0xFF) ks)
  else .error .indexError

/-- Model of `vigenere256_decrypt` (src/src/stego/crypto.py):
`bytes(((d - ks[i]) & 0xFF) for i, d in enumerate(data))`.  Python's
`(d - k) & 0xFF` on possibly-negative ints is the nonnegative residue
`(d - k) mod 256`, modelled through `Int.emod`. -/
def vigenere256_decrypt (data key : List Nat) : PRes (List Nat) :=
  let ks := _keystream key data.length
  if data.length ≤ ks.length then
    .ok (data.zipWith (fun (d k : Nat) => (((d : Int) - (k : Int)) % 256).toNat) ks)
  else .error .indexError

namespace Vigenere256

/-- Model of `_key_stream` (src/src/core/vigenere256.py); identical
algorithm to `_keystream` above. -/
def _key_stream (key : List Nat) (length : Nat) : List Nat :=
  if key = [] then []
  else ((List.replicate (length / key.length + 1) key).flatten).take length

/-- Model of `encrypt` (src/src/core/vigenere256.py):
`bytes(((d + k[i]) % 256) for i, d in enumerate(data))`, raising
`IndexError` when the keystream is shorter than the data. -/
def encrypt (data key : List Nat) : PRes (List Nat) :=
  let k := _key_stream key data.length
  if data.length ≤ k.length then
    .ok (data.zipWith (fun d ki => (d + ki) % 256) k)
  else .error .indexError

/-- Model of `decrypt` (src/src/core/vigenere256.py):
`bytes(((d - k[i]) % 256) for i, d in enumerate(data))`. -/
def decrypt (data key : List Nat) : PRes (List Nat) :=
  let k := _key_stream key data.length
  if data.length ≤ k.length then
    .ok (data.zipWith (fun (d ki : Nat) => (((d : Int) - (ki : Int)) % 256).toNat) k)
  else .error .indexError

end Vigenere256

/-! Basic facts about the keystream and the cipher. -/

theorem _keystream_length (key : List Nat) (n : Nat) (h : key ≠ []) :
    (_keystream key n).length = n := by
  unfold _keystream
  rw [if_neg h]
  have hk : 0 < key.length := List.length_pos.mpr h
  rw [List.length_take]
  have hflat : ((List.replicate (n / key.length + 1) key).flatten).length
      = (n / key.length + 1) * key.length := by
    induction (n / key.length + 1) with
    | zero => simp
    | succ m ih =>
      simp only [List.replicate_succ, List.flatten_cons, List.length_append, ih]
      ring
  rw [hflat]
  apply Nat.min_eq_left
  have h1 : key.length * (n / key.length) + n % key.length = n := Nat.div_add_mod n key.length
  have h2 := Nat.mod_lt n hk
  have h3 : (n / key.length + 1) * key.length
      = key.length * (n / key.length) + key.length := by
    ring
  omega

theorem Vigenere256._key_stream_eq : Vigenere256._key_stream = _keystream := rfl

/-- Pointwise involution: subtracting the keystream byte undoes adding it,
for data bytes below 256 (the `& 0xFF` variant from stego/crypto.py). -/
theorem byte_enc_dec (d k : Nat) (hd : d < 256) :
    ((((((d + k) &&& 0xFF) : Nat) : Int) - (k : Int)) % 256).toNat = d := by
  have hmask : ((d + k) &&& 0xFF) = (d + k) % 256 := by
    have h255 : (0xFF : Nat) = 2 ^ 8 - 1 := rfl
    rw [h255, Nat.and_pow_two_sub_one_eq_mod]
  rw [hmask]
  have hcast : ((((d + k) % 256 : Nat) : Int)) = ((d : Int) + (k : Int)) % 256 := by
    push_cast
    ring_nf
  rw [hcast]
  have : (((d : Int) + (k : Int)) % 256 - (k : Int)) % 256 = (d : Int) := by omega
  rw [this]
  exact Int.toNat_natCast d

/-- Pointwise involution, `% 256` variant from core/vigenere256.py. -/
theorem byte_enc_dec_mod (d k : Nat) (hd : d < 256) :
    (((((d + k) % 256 : Nat) : Int) - (k : Int)) % 256).toNat = d := by
  have hcast : ((((d + k) % 256 : Nat) : Int)) = ((d : Int) + (k : Int)) % 256 := by
    push_cast
    ring_nf
  rw [hcast]
  have : (((d : Int) + (k : Int)) % 256 - (k : Int)) % 256 = (d : Int) := by omega
  rw [this]
  exact Int.toNat_natCast d

theorem zip_enc_dec (f g : Nat → Nat → Nat)
    (hfg : ∀ d k, d < 256 → g (f d k) k = d) :
    ∀ (data ks : List Nat), data.length = ks.length → (∀ b ∈ data, b < 256) →
      List.zipWith g (List.zipWith f data ks) ks = data := by
  intro data
  induction data with
  | nil => intro ks _ _; simp
  | cons d t ih =>
    intro ks hlen hb
    cases ks with
    | nil => simp at hlen
    | cons k kt =>
      simp only [List.zipWith_cons_cons]
      have hd : d < 256 := hb d (List.mem_cons_self d t)
      rw [hfg d k hd, ih kt (by simpa using hlen) (fun b hbm => hb b (List.mem_cons_of_mem d hbm))]

/-- C5 claim artifact: the involution `decrypt(encrypt(data,key),key) == data`
fails at `data = [0]`, `key = b""`: the encryption side raises `IndexError`
(it indexes the empty keystream), so the composite is an exception, not
`data`. -/
theorem vigenere256_involution_cex :
    (vigenere256_encrypt [0] []).bind (fun e => vigenere256_decrypt e []) =
      PRes.error PyErr.indexError ∧
    (vigenere256_encrypt [0] []).bind (fun e => vigenere256_decrypt e []) ≠
      PRes.ok [0] := by
  constructor
  · rfl
  · decide

/-- Shared involution lemma: for every non-empty key and every byte
sequence `data` (entries < 256), decrypting the encryption restores
`data` exactly, for both cipher implementations. -/
theorem vigenere256_involutionAux (data key : List Nat)
    (hkey : key ≠ []) (hdata : ∀ b ∈ data, b < 256) :
    (vigenere256_encrypt data key).bind (fun e => vigenere256_decrypt e key) =
      PRes.ok data ∧
    (Vigenere256.encrypt data key).bind (fun e => Vigenere256.decrypt e key) =
      PRes.ok data := by
  have hks : (_keystream key data.length).length = data.length :=
    _keystream_length key data.length hkey
  constructor
  · simp only [vigenere256_encrypt, vigenere256_decrypt]
    rw [if_pos (le_of_eq hks.symm)]
    simp only [PRes.bind]
    have hzlen : (data.zipWith (fun d k => (d + k) &&& 0xFF) (_keystream key data.length)).length
        = data.length := by
      rw [List.length_zipWith, hks, min_self]
    rw [hzlen, hks, if_pos (le_refl data.length)]
    rw [zip_enc_dec (fun d k => (d + k) &&& 0xFF)
        (fun (e k : Nat) => (((e : Int) - (k : Int)) % 256).toNat)
        (fun d k hd => byte_enc_dec d k hd) data (_keystream key data.length) hks.symm hdata]
  · simp only [Vigenere256.encrypt, Vigenere256.decrypt, Vigenere256._key_stream_eq]
    rw [if_pos (le_of_eq hks.symm)]
    simp only [PRes.bind]
    have hzlen : (data.zipWith (fun d k => (d + k) % 256) (_keystream key data.length)).length
        = data.length := by
      rw [List.length_zipWith, hks, min_self]
    rw [hzlen, hks, if_pos (le_refl data.length)]
    rw [zip_enc_dec (fun d k => (d + k) % 256)
        (fun (e k : Nat) => (((e : Int) - (k : Int)) % 256).toNat)
        (fun d k hd => byte_enc_dec_mod d k hd) data (_keystream key data.length) hks.symm hdata]

/-- C5 (amended): for every non-empty key and every byte sequence `data`
(entries < 256), decrypting the encryption restores `data` exactly, both
for the stego/crypto.py pair and for the core/vigenere256.py pair. -/
theorem vigenere256_involution_amended (data key : List Nat)
    (hkey : key ≠ []) (hdata : ∀ b ∈ data, b < 256) :
    (vigenere256_encrypt data key).bind (fun e => vigenere256_decrypt e key) =
      PRes.ok data ∧
    (Vigenere256.encrypt data key).bind (fun e => Vigenere256.decrypt e key) =
      PRes.ok data :=
  vigenere256_involutionAux data key hkey hdata

/-- Witness for the amended C5 theorem at a concrete input. -/
theorem vigenere256_involution_witness :
    (vigenere256_encrypt [0, 255, 17] [1, 200]).bind
        (fun e => vigenere256_decrypt e [1, 200]) = PRes.ok [0, 255, 17] ∧
    (Vigenere256.encrypt [0, 255, 17] [1, 200]).bind
        (fun e => Vigenere256.decrypt e [1, 200]) = PRes.ok [0, 255, 17] :=
  vigenere256_involution_amended [0, 255, 17] [1, 200] (by decide) (by decide)

/-- C2 claim artifact: with an empty key, `encrypt` is not a no-op on
non-empty data; it raises `IndexError` (the empty keystream is indexed),
for both implementations of the cipher. -/
theorem vigenere256_empty_key_cex :
    vigenere256_encrypt [0] [] = PRes.error PyErr.indexError ∧
    vigenere256_encrypt [0] [] ≠ PRes.ok [0] ∧
    Vigenere256.encrypt [0] [] = PRes.error PyErr.indexError ∧
    vigenere256_decrypt [0] [] = PRes.error PyErr.indexError := by
  refine ⟨rfl, by decide, rfl, rfl⟩

/-- C2 (amended): with an empty key the keystream is empty, and encrypt and
decrypt return their input unchanged only when the input is itself empty;
on non-empty data both raise `IndexError` instead of acting as no-ops. -/
theorem vigenere256_empty_key_amended (data : List Nat) :
    (vigenere256_encrypt data [] =
      if data = [] then PRes.ok data else PRes.error PyErr.indexError) ∧
    (vigenere256_decrypt data [] =
      if data = [] then PRes.ok data else PRes.error PyErr.indexError) ∧
    (Vigenere256.encrypt data [] =
      if data = [] then PRes.ok data else PRes.error PyErr.indexError) ∧
    (Vigenere256.decrypt data [] =
      if data = [] then PRes.ok data else PRes.error PyErr.indexError) := by
  cases data with
  | nil => refine ⟨rfl, rfl, rfl, rfl⟩
  | cons b t =>
    refine ⟨?_, ?_, ?_, ?_⟩ <;>
      simp [vigenere256_encrypt, vigenere256_decrypt, Vigenere256.encrypt,
        Vigenere256.decrypt, _keystream, Vigenere256._key_stream]

/-! ## Container format (src/src/stego/pipeline.py and src/src/core/metadata.py) -/

/-- Magic bytes b"STEG". -/
def MAGIC : List Nat := [0x53, 0x54, 0x45, 0x47]

/-- Container format version. -/
def VER : Nat := 1

/-- Flag bit 0: payload encrypted. -/
def FLAG_ENC : Nat := 1

/-- Flag bit 1: randomized start position. -/
def FLAG_RND : Nat := 2

/-- Little-endian u32, struct.pack "<I" (callers ensure the value fits). -/
def u32le (v : Nat) : List Nat :=
  [v % 256, v / 256 % 256, v / 65536 % 256, v / 16777216 % 256]

/-- Little-endian u16, struct.pack "<H". -/
def u16le (v : Nat) : List Nat := [v % 256, v / 256 % 256]

/-- Big-endian u32, struct.pack ">I". -/
def u32be (v : Nat) : List Nat :=
  [v / 16777216 % 256, v / 65536 % 256, v / 256 % 256, v % 256]

/-- Big-endian u32 decode, struct.unpack ">I" of the first four bytes. -/
def u32beDec (bs : List Nat) : Nat :=
  match bs with
  | b0 :: b1 :: b2 :: b3 :: _ => ((b0 * 256 + b1) * 256 + b2) * 256 + b3
  | _ => 0

/-- Parsed header fields, as returned by `_parse_header` / `parse_header`
(a Python dict in the source). -/
structure Meta where
  flags : Nat
  n_lsb : Nat
  payload_len : Nat
  name : List Nat
  ext : List Nat
  header_len : Nat
deriving DecidableEq

/-- Model of `_build_header` (src/src/stego/pipeline.py):
`struct.pack("<4s B B B I H B", MAGIC, VER, flags, n_lsb, payload_len,
len(name_b), len(ext_b)) + name_b + ext_b`.  `struct.pack` raises
`struct.error` when a field does not fit its width. -/
def _build_header (encrypted randomized : Bool) (n_lsb payload_len : Nat)
    (name ext : List Nat) : PRes (List Nat) :=
  let flags := (if encrypted then FLAG_ENC else 0) |||
               (if randomized then FLAG_RND else 0)
  if n_lsb < 256 ∧ payload_len < 4294967296 ∧ name.length < 65536 ∧ ext.length < 256 then
    .ok (MAGIC ++ [VER, flags, n_lsb] ++ u32le payload_len ++ u16le name.length
         ++ [ext.length] ++ name ++ ext)
  else .error .structError

/-- Model of `_parse_header` (src/src/stego/pipeline.py).  The match arm
binds the 14-byte fixed prefix of `struct.unpack_from("<4s B B B I H B")`
positionally: magic (4), version, flags, n_lsb, payload_len (u32 LE),
name_len (u16 LE), ext_len; a shorter buffer raises `ValueError`
("Header too small").  Magic/version mismatch and the
`off + name_len + ext_len > len(buf)` bound both raise `ValueError`, in
source order, before the name/extension bytes are sliced.  UTF-8 decoding
is not modelled (names stay byte lists); a decode failure would be
`UnicodeDecodeError`, a subclass of `ValueError`, so the error taxonomy is
unchanged. -/
def _parse_header (buf : List Nat) : PRes Meta :=
  match buf with
  | m0 :: m1 :: m2 :: m3 :: ver :: flags :: n_lsb :: p0 :: p1 :: p2 :: p3 ::
      l0 :: l1 :: el :: rest =>
    if [m0, m1, m2, m3] ≠ MAGIC ∨ ver ≠ VER then .error .valueError
    else if 14 + (l0 + 256 * l1) + el > 14 + rest.length then .error .valueError
    else
      .ok { flags := flags, n_lsb := n_lsb,
            payload_len := p0 + 256 * (p1 + 256 * (p2 + 256 * p3)),
            name := rest.take (l0 + 256 * l1),
            ext := (rest.drop (l0 + 256 * l1)).take el,
            header_len := 14 + (l0 + 256 * l1) + el }
  | _ => .error .valueError

namespace Metadata

/-- Model of `parse_header` (src/src/core/metadata.py), header format
"<4sB B I H B": magic (4), version, flags, payload_len (u32 LE),
name_len (u16 LE), n_lsb — 13 fixed bytes.  `struct.unpack_from` raises
`struct.error` (not `ValueError`) when the buffer is shorter than 13
bytes.  After the magic check the name slice
`buf[offset:offset+name_len]` silently truncates at the buffer end, and
`ext_len = buf[offset]` raises `IndexError` whenever
`offset = 13 + name_len` is at or past the end of the buffer; no bound on
`name_len`/`ext_len` is ever checked. -/
def parse_header (buf : List Nat) : PRes Meta :=
  match buf with
  | m0 :: m1 :: m2 :: m3 :: _ver :: flags :: p0 :: p1 :: p2 :: p3 ::
      l0 :: l1 :: nl :: rest =>
    if [m0, m1, m2, m3] ≠ MAGIC then .error .valueError
    else if 13 + (l0 + 256 * l1) ≥ buf.length then .error .indexError
    else
      .ok { flags := flags, n_lsb := nl,
            payload_len := p0 + 256 * (p1 + 256 * (p2 + 256 * p3)),
            name := rest.take (l0 + 256 * l1),
            ext := (buf.drop (14 + (l0 + 256 * l1))).take (buf.getD (13 + (l0 + 256 * l1)) 0),
            header_len := 14 + (l0 + 256 * l1) + buf.getD (13 + (l0 + 256 * l1)) 0 }
  | _ => .error .structError

end Metadata

/-- C7 claim artifact: `parse_header` from core/metadata.py violates the
claim.  On a 13-byte buffer with valid magic whose declared `name_len`
runs past the end, it raises `IndexError` (an out-of-bounds read of the
`ext_len` byte) instead of a format error; on a too-short buffer it
raises `struct.error`, which is not a `ValueError`. -/
theorem parse_header_cex :
    Metadata.parse_header [83, 84, 69, 71, 1, 0, 1, 0, 0, 0, 5, 0, 1] =
      PRes.error PyErr.indexError ∧
    PyErr.indexError ≠ PyErr.valueError ∧
    Metadata.parse_header [] = PRes.error PyErr.structError ∧
    PyErr.structError ≠ PyErr.valueError := by
  refine ⟨by decide, by decide, rfl, by decide⟩

/-- C7 (amended, pipeline side): `_parse_header` from stego/pipeline.py
does satisfy the claim: a buffer shorter than the 14-byte prefix, a magic
mismatch, or declared name/extension lengths running past the buffer all
produce `ValueError` (never any other exception kind, and never an
out-of-bounds access), and parsing succeeds only when the buffer holds the
full prefix, magic and the declared name/extension bytes. -/
theorem _parse_header_safe (buf : List Nat) :
    (buf.length < 14 → _parse_header buf = PRes.error PyErr.valueError) ∧
    (buf.take 4 ≠ MAGIC → _parse_header buf = PRes.error PyErr.valueError) ∧
    (∀ meta, _parse_header buf = PRes.ok meta →
      14 + meta.name.length + meta.ext.length ≤ buf.length ∧ buf.take 4 = MAGIC) ∧
    (∀ e, _parse_header buf = PRes.error e → e = PyErr.valueError) := by
  unfold _parse_header
  split
  next m0 m1 m2 m3 ver flags n_lsb p0 p1 p2 p3 l0 l1 el rest =>
    refine ⟨?_, ?_, ?_, ?_⟩
    · intro h
      simp only [List.length_cons] at h
      omega
    · intro h
      have hm : [m0, m1, m2, m3] ≠ MAGIC := by
        intro hc
        exact h (by simp [List.take, hc])
      rw [if_pos (Or.inl hm)]
    · intro meta hok
      split_ifs at hok with h1 h2
      push_neg at h1
      injection hok with hok
      subst hok
      constructor
      · simp only [List.length_cons, List.length_take, List.length_drop]
        omega
      · have hmg := h1.1
        simp [List.take, hmg]
    · intro e he
      split_ifs at he
      · injection he with h
        exact h.symm
      · injection he with h
        exact h.symm
  next =>
    refine ⟨fun _ => rfl, fun _ => rfl, fun meta h => ?_, fun e h => ?_⟩
    · cases h
    · injection h with h
      exact h.symm

/-- Witness for the amended C7 theorem: a three-byte buffer is rejected
with `ValueError` by the pipeline parser. -/
theorem _parse_header_safe_witness :
    _parse_header [0, 1, 2] = PRes.error PyErr.valueError :=
  (_parse_header_safe [0, 1, 2]).1 (by decide)

/-! ## Keyed start position (src/src/stego/seed.py): SHA-256 based seed -/

/-- Right rotation on 32-bit words (building block of SHA-256). -/
def rotr32 (n x : Nat) : Nat := ((x >>> n) ||| (x <<< (32 - n))) &&& 0xFFFFFFFF

/-- SHA-256 round constants. -/
def sha256K : List Nat := [
  1116352408, 1899447441, 3049323471, 3921009573, 961987163, 1508970993,
  2453635748, 2870763221, 3624381080, 310598401, 607225278, 1426881987,
  1925078388, 2162078206, 2614888103, 3248222580, 3835390401, 4022224774,
  264347078, 604807628, 770255983, 1249150122, 1555081692, 1996064986,
  2554220882, 2821834349, 2952996808, 3210313671, 3336571891, 3584528711,
  113926993, 338241895, 666307205, 773529912, 1294757372, 1396182291,
  1695183700, 1986661051, 2177026350, 2456956037, 2730485921, 2820302411,
  3259730800, 3345764771, 3516065817, 3600352804, 4094571909, 275423344,
  430227734, 506948616, 659060556, 883997877, 958139571, 1322822218,
  1537002063, 1747873779, 1955562222, 2024104815, 2227730452, 2361852424,
  2428436474, 2756734187, 3204031479, 3329325298]

/-- SHA-256 initial hash state. -/
def sha256H0 : List Nat := [
  1779033703, 3144134277, 1013904242, 2773480762, 1359893119, 2600822924,
  528734635, 1541459225]

/-- Big-endian 8-byte encoding of a 64-bit value, for SHA-256 padding. -/
def u64be (v : Nat) : List Nat :=
  (List.range 8).map fun i => (v >>> (8 * (7 - i))) &&& 0xFF

/-- SHA-256 message padding: append 0x80, zero bytes until the length is
56 mod 64, then the 64-bit big-endian bit length. -/
def sha256pad (msg : List Nat) : List Nat :=
  msg ++ [0x80] ++ List.replicate ((64 + 56 - (msg.length + 1) % 64) % 64) 0
      ++ u64be (8 * msg.length)

/-- Big-endian 32-bit words of a byte sequence. -/
def wordsOf : List Nat → List Nat
  | b0 :: b1 :: b2 :: b3 :: rest =>
    (((b0 * 256 + b1) * 256 + b2) * 256 + b3) :: wordsOf rest
  | _ => []

/-- SHA-256 sigma functions. -/
def smallSigma0 (x : Nat) : Nat := (rotr32 7 x) ^^^ (rotr32 18 x) ^^^ (x >>> 3)

/-- SHA-256 sigma functions. -/
def smallSigma1 (x : Nat) : Nat := (rotr32 17 x) ^^^ (rotr32 19 x) ^^^ (x >>> 10)

/-- SHA-256 Sigma functions. -/
def bigSigma0 (x : Nat) : Nat := (rotr32 2 x) ^^^ (rotr32 13 x) ^^^ (rotr32 22 x)

/-- SHA-256 Sigma functions. -/
def bigSigma1 (x : Nat) : Nat := (rotr32 6 x) ^^^ (rotr32 11 x) ^^^ (rotr32 25 x)

/-- Message-schedule extension: starting from the 16 block words, append
`k` further words `w[i] = s1(w[i-2]) + w[i-7] + s0(w[i-15]) + w[i-16]`. -/
def sha256sched (w : List Nat) : Nat → List Nat
  | 0 => w
  | k + 1 =>
    let w2 := sha256sched w k
    let i := w2.length
    w2 ++ [(smallSigma1 (w2.getD (i - 2) 0) + w2.getD (i - 7) 0 +
            smallSigma0 (w2.getD (i - 15) 0) + w2.getD (i - 16) 0) % 4294967296]

/-- One SHA-256 compression round on the state [a,b,c,d,e,f,g,h]. -/
def sha256round (st : List Nat) (ki wi : Nat) : List Nat :=
  match st with
  | [a, b, c, d, e, f, g, h] =>
    let ch := (e &&& f) ^^^ ((e ^^^ 0xFFFFFFFF) &&& g)
    let t1 := (h + bigSigma1 e + ch + ki + wi) % 4294967296
    let maj := (a &&& b) ^^^ (a &&& c) ^^^ (b &&& c)
    let t2 := (bigSigma0 a + maj) % 4294967296
    [(t1 + t2) % 4294967296, a, b, c, (d + t1) % 4294967296, e, f, g]
  | _ => st

/-- Process one 64-byte block. -/
def sha256block (h : List Nat) (block : List Nat) : List Nat :=
  let w := sha256sched (wordsOf block) 48
  let st := (List.range 64).foldl
    (fun st i => sha256round st (sha256K.getD i 0) (w.getD i 0)) h
  h.zipWith (fun x y => (x + y) % 4294967296) st

/-- Process all 64-byte blocks of a padded message; the fuel argument
(one unit per block, any value at least `msg.length` suffices) makes the
recursion structural. -/
def sha256blocksF (fuel : Nat) (h : List Nat) (msg : List Nat) : List Nat :=
  match fuel with
  | 0 => h
  | fuel + 1 =>
    if msg = [] then h
    else sha256blocksF fuel (sha256block h (msg.take 64)) (msg.drop 64)

/-- Process all 64-byte blocks of a padded message. -/
def sha256blocks (h : List Nat) (msg : List Nat) : List Nat :=
  sha256blocksF msg.length h msg

/-- SHA-256 digest (32 bytes) of a byte sequence. -/
def sha256 (msg : List Nat) : List Nat :=
  (sha256blocks sha256H0 (sha256pad msg)).flatMap
    (fun w => [(w >>> 24) &&& 255, (w >>> 16) &&& 255, (w >>> 8) &&& 255, w &&& 255])

/-- Model of `seed_from_key` (src/src/stego/seed.py): SHA-256 the UTF-8 key
bytes and read the first 8 digest bytes as a big-endian unsigned integer.
Keys are modelled directly as their UTF-8 byte sequences. -/
def seed_from_key (key : List Nat) : Nat :=
  ((sha256 key).take 8).foldl (fun acc b => acc * 256 + b) 0

/-- Model of `start_index_from_seed` (src/src/stego/seed.py):
`seed % total_slots`, or 0 when there are no slots. -/
def start_index_from_seed (total_slots seed : Nat) : Nat :=
  if total_slots = 0 then 0 else seed % total_slots

/-! ## Building and re-parsing a header -/

/-- Building a header and parsing it back (with any body appended) returns
exactly the recorded fields. -/
theorem parse_build_header (encrypted randomized : Bool) (n_lsb payload_len : Nat)
    (name ext body : List Nat) (hn : n_lsb < 256) (hp : payload_len < 4294967296)
    (hname : name.length < 65536) (hext : ext.length < 256) :
    _build_header encrypted randomized n_lsb payload_len name ext =
      PRes.ok (MAGIC ++ [VER, (if encrypted then FLAG_ENC else 0) |||
          (if randomized then FLAG_RND else 0), n_lsb] ++ u32le payload_len ++
          u16le name.length ++ [ext.length] ++ name ++ ext) ∧
    (MAGIC ++ [VER, (if encrypted then FLAG_ENC else 0) |||
        (if randomized then FLAG_RND else 0), n_lsb] ++ u32le payload_len ++
        u16le name.length ++ [ext.length] ++ name ++ ext).length
      = 14 + name.length + ext.length ∧
    _parse_header ((MAGIC ++ [VER, (if encrypted then FLAG_ENC else 0) |||
        (if randomized then FLAG_RND else 0), n_lsb] ++ u32le payload_len ++
        u16le name.length ++ [ext.length] ++ name ++ ext) ++ body) = PRes.ok
      { flags := (if encrypted then FLAG_ENC else 0) |||
          (if randomized then FLAG_RND else 0),
        n_lsb := n_lsb, payload_len := payload_len, name := name, ext := ext,
        header_len := 14 + name.length + ext.length } := by
  refine ⟨?_, ?_, ?_⟩
  · unfold _build_header
    rw [if_pos ⟨hn, hp, hname, hext⟩]
  · simp [MAGIC, u32le, u16le]
    omega
  · simp only [MAGIC, u32le, u16le, VER, List.cons_append, List.nil_append,
      List.append_assoc]
    rw [_parse_header]
    have hmagic : ¬([83, 84, 69, 71] ≠ MAGIC ∨ (1 : Nat) ≠ VER) := by
      simp [MAGIC, VER]
    rw [if_neg hmagic]
    have hnl : name.length % 256 + 256 * (name.length / 256 % 256) = name.length := by
      omega
    have hpl : payload_len % 256 + 256 * (payload_len / 256 % 256 +
        256 * (payload_len / 65536 % 256 + 256 * (payload_len / 16777216 % 256)))
        = payload_len := by
      omega
    rw [hnl, hpl]
    have hbound : ¬(14 + name.length + ext.length > 14 + (name ++ (ext ++ body)).length) := by
      simp [List.length_append]
      omega
    rw [if_neg hbound]
    have htake : (name ++ (ext ++ body)).take name.length = name := by
      rw [List.take_append_of_le_length (le_refl _), List.take_length]
    have hdroptake : ((name ++ (ext ++ body)).drop name.length).take ext.length = ext := by
      rw [List.drop_append_of_le_length (le_refl _), List.drop_length,
        List.nil_append, List.take_append_of_le_length (le_refl _), List.take_length]
    rw [htake, hdroptake]

/-! ## PCM sample carrier (src/src/stego/pipeline.py) -/

/-- Writing one slot: `s = (s & ~mask) | val` followed by the int16
re-wrap `((s + 0x8000) & 0xFFFF) - 0x8000`.  On Python's unbounded
two's-complement integers, `s & ~mask` (with `mask = 2^n - 1`) clears the
low `n` bits, i.e. equals `s - s % 2^n` with the Euclidean `%`; or-ing a
value `v < 2^n` into the cleared low bits is addition; `& 0xFFFF` on the
shifted value is `% 65536`. -/
def writeSlot (n : Nat) (s : Int) (v : Nat) : Int :=
  ((s - s % ((2 : Int) ^ n) + (v : Int) + 32768) % 65536) - 32768

/-- Value of one group of bits, least-significant first:
`val |= (bit & 1) << j` for the j-th bit taken from the stream. -/
def groupVal : List Nat → Nat
  | [] => 0
  | b :: t => (b &&& 1) + 2 * groupVal t

/-- Model of the while-loop of `_embed_bits_into_samples`
(src/src/stego/pipeline.py): take up to `n_lsb` bits from the stream
(`next(bit_iter)` until `StopIteration`), write them into the low bits of
the sample at `idx`, advance cyclically (`idx = 0` after `N - 1`), stop
when the stream is exhausted, also in the middle of a group.  Returns the
updated samples and the number of payload bits written. -/
def embedLoopF (N n : Nat) (fuel : Nat) (samples : List Int) (bits : List Nat)
    (idx : Nat) : List Int × Nat :=
  match fuel with
  | 0 => (samples, 0)
  | fuel + 1 =>
    if (bits.take n).length = 0 then (samples, 0)
    else
      let g := bits.take n
      let samples2 := samples.set idx (writeSlot n (samples.getD idx 0) (groupVal g))
      if g.length < n then (samples2, g.length)
      else
        let r := embedLoopF N n fuel samples2 (bits.drop n)
          (if idx + 1 = N then 0 else idx + 1)
        (r.1, g.length + r.2)

/-- The write loop; the fuel (one unit per written slot, any value at
least `bits.length` suffices because every non-final slot consumes
`n_lsb >= 1` bits) makes the recursion structural. -/
def embedLoop (N n : Nat) (samples : List Int) (bits : List Nat) (idx : Nat) :
    List Int × Nat :=
  embedLoopF N n bits.length samples bits idx

/-- Model of `_embed_bits_into_samples` (src/src/stego/pipeline.py): guard
`N == 0`, reduce the start index mod `N`, run the write loop. -/
def _embed_bits_into_samples (samples : List Int) (bits : List Nat)
    (n_lsb start_seed_index : Nat) : List Int × Nat :=
  if samples.length = 0 then (samples, 0)
  else embedLoop samples.length n_lsb samples bits (start_seed_index % samples.length)

/-- Model of the bit-collection loop of `_extract_bits_from_samples`:
read the low `n_lsb` bits of the sample at `idx` (least significant
first), advance cyclically, stop as soon as `need` bits are collected.
With `n_lsb = 0` the Python loop would never terminate; the model returns
`[]` there (no caller passes 0). -/
def bitsReadF (samples : List Int) (n : Nat) (fuel : Nat) (need idx : Nat) :
    List Nat :=
  match fuel with
  | 0 => []
  | fuel + 1 =>
    if need = 0 ∨ n = 0 then []
    else
      let v := ((samples.getD idx 0) % ((2 : Int) ^ n)).toNat
      ((List.range (min n need)).map fun j => (v >>> j) &&& 1) ++
        bitsReadF samples n fuel (need - min n need)
          (if idx + 1 = samples.length then 0 else idx + 1)

/-- The bit-collection loop; the fuel (one unit per visited sample, any
value at least `need` suffices because every visited sample yields at
least one bit) makes the recursion structural. -/
def bitsRead (samples : List Int) (n need idx : Nat) : List Nat :=
  bitsReadF samples n need need idx

/-- Model of `_extract_bits_from_samples` (src/src/stego/pipeline.py):
collect `total_bits` sample LSBs starting at `start_seed_index % N` and
pack them MSB-first into bytes (the packing loop is the same code as
`bytes_from_bits`); an empty sample array yields `b""`. -/
def _extract_bits_from_samples (samples : List Int)
    (total_bits n_lsb start_seed_index : Nat) : List Nat :=
  if samples.length = 0 then []
  else bytes_from_bits (bitsRead samples n_lsb total_bits (start_seed_index % samples.length))

/-! ## Pipeline embed / extract (src/src/stego/pipeline.py) -/

/-- Flags dictionary returned by `extract_to_file`. -/
structure ExtractFlags where
  encrypted : Bool
  randomized : Bool
  n_lsb : Nat
deriving DecidableEq

/-- Model of `_try_extract_with_params` (src/src/stego/pipeline.py).
`.ok none` models the `return None` rejections; `.ok (some _)` is an
accepted candidate; `.error _` is an exception propagating out of the
function (decrypting with an empty key raises `IndexError`). -/
def _try_extract_with_params (samples : List Int) (key : List Nat)
    (n_lsb : Nat) (use_rand_start : Bool) : PRes (Option (List Nat × Meta)) :=
  let seed := if use_rand_start then seed_from_key key else 0
  let start := start_index_from_seed samples.length seed
  let raw_len := _extract_bits_from_samples samples 32 n_lsb start
  if raw_len.length < 4 then .ok none
  else if u32beDec raw_len = 0 ∨ u32beDec raw_len > 134217728 then .ok none
  else
    let raw_all := _extract_bits_from_samples samples ((4 + u32beDec raw_len) * 8) n_lsb start
    let blob := (raw_all.drop 4).take (u32beDec raw_len)
    match _parse_header blob with
    | .error _ => .ok none
    | .ok meta =>
      if meta.n_lsb ≠ n_lsb then .ok none
      else
        let data := blob.drop meta.header_len
        if meta.flags &&& FLAG_ENC ≠ 0 then
          match vigenere256_decrypt data key with
          | .error e => .error e
          | .ok d => .ok (some (d, meta))
        else .ok (some (data, meta))

/-- Candidate order of the extraction parameter search in
`extract_to_file`: `for n in (1,2,3,4): for rnd in (True, False)`. -/
def candidateOrder : List (Nat × Bool) :=
  [(1, true), (1, false), (2, true), (2, false),
   (3, true), (3, false), (4, true), (4, false)]

/-- Search loop of `extract_to_file`: try the candidates in order, return
the first accepted one (with the flags dictionary built from the parsed
header), raise `ExtractError` when every candidate is rejected. -/
def extractSearch (samples : List Int) (key : List Nat) :
    List (Nat × Bool) → PRes (List Nat × ExtractFlags)
  | [] => .error .extractError
  | (n, rnd) :: rest =>
    match _try_extract_with_params samples key n rnd with
    | .error e => .error e
    | .ok (some (data, meta)) =>
      .ok (data, { encrypted := meta.flags &&& FLAG_ENC != 0,
                   randomized := meta.flags &&& FLAG_RND != 0,
                   n_lsb := meta.n_lsb })
    | .ok none => extractSearch samples key rest

/-- Model of `extract_to_file` (src/src/stego/pipeline.py) on decoded
samples: the extracted payload bytes (the bytes written to the output
file) and the reported flags dictionary. -/
def extract_to_file (samples : List Int) (key : List Nat) :
    PRes (List Nat × ExtractFlags) :=
  extractSearch samples key candidateOrder

/-- Model of `compute_capacity_for_file` (src/src/stego/pipeline.py) on
decoded samples: `samples.size * n_lsb` bits, after validating
`n_lsb ∈ [1,4]` and rejecting covers with no usable samples (both
`ValueError`s; the re-wrapping into a generic `Exception` is not
distinguished). -/
def compute_capacity_for_file (samples : List Int) (n_lsb : Nat) : PRes Nat :=
  if n_lsb < 1 ∨ n_lsb > 4 then .error .valueError
  else if samples.length * n_lsb = 0 then .error .valueError
  else .ok (samples.length * n_lsb)

/-- Model of `embed_to_file` (src/src/stego/pipeline.py) on decoded
samples (file decoding, WAV re-encoding and the PSNR diagnostic are
collaborator I/O).  The secret file's stem and suffixes are passed in as
`name`/`ext` byte lists; `struct.pack(">I")` on an oversized container
raises `struct.error`. -/
def embed_to_file (samples : List Int) (secret name ext key : List Nat)
    (n_lsb : Nat) (encrypt use_rand_start : Bool) : PRes (List Int) :=
  if n_lsb < 1 ∨ n_lsb > 4 then .error .valueError
  else
    match (if encrypt then vigenere256_encrypt secret key else .ok secret) with
    | .error e => .error e
    | .ok body =>
      match _build_header encrypt use_rand_start n_lsb body.length name ext with
      | .error e => .error e
      | .ok hdr =>
        if (hdr ++ body).length ≥ 4294967296 then .error .structError
        else
          match compute_capacity_for_file samples n_lsb with
          | .error e => .error e
          | .ok cap =>
            if (u32be (hdr ++ body).length ++ (hdr ++ body)).length * 8 > cap then
              .error .capacityError
            else
              let seed := if use_rand_start then seed_from_key key else 0
              let start := start_index_from_seed samples.length seed
              let r := _embed_bits_into_samples samples
                (bits_from_bytes (u32be (hdr ++ body).length ++ (hdr ++ body))) n_lsb start
              if r.2 < (u32be (hdr ++ body).length ++ (hdr ++ body)).length * 8 then
                .error .capacityError
              else .ok r.1

/-- Model of `calculate_payload_size` (src/src/stego/pipeline.py):
`(4 + len(header + body)) * 8` bits, with the same encryption and header
construction as `embed_to_file`. -/
def calculate_payload_size (secret name ext key : List Nat)
    (n_lsb : Nat) (encrypt use_rand_start : Bool) : PRes Nat :=
  match (if encrypt then vigenere256_encrypt secret key else .ok secret) with
  | .error e => .error e
  | .ok body =>
    match _build_header encrypt use_rand_start n_lsb body.length name ext with
    | .error e => .error e
    | .ok hdr => .ok ((4 + (hdr ++ body).length) * 8)

/-- Feasibility report of `check_embed_feasibility`.  The float field
`utilization_percent` and the advisory `recommendation` text are omitted
(floating point and string formatting are outside the model). -/
structure FeasibilityReport where
  capacity_bits : Nat
  need_bits : Nat
  fits : Bool
  margin_bits : Int
deriving DecidableEq

/-- Model of `check_embed_feasibility` (src/src/stego/pipeline.py): on any
internal exception the `except` clause returns the sentinel report with
zeros and `fits = false`; otherwise `fits = need_bits <= capacity_bits`
and `margin_bits = capacity_bits - need_bits`. -/
def check_embed_feasibility (samples : List Int) (secret name ext key : List Nat)
    (n_lsb : Nat) (encrypt use_rand_start : Bool) : FeasibilityReport :=
  match compute_capacity_for_file samples n_lsb with
  | .error _ => { capacity_bits := 0, need_bits := 0, fits := false, margin_bits := 0 }
  | .ok capacity_bits =>
    match calculate_payload_size secret name ext key n_lsb encrypt use_rand_start with
    | .error _ => { capacity_bits := 0, need_bits := 0, fits := false, margin_bits := 0 }
    | .ok need_bits =>
      { capacity_bits := capacity_bits, need_bits := need_bits,
        fits := decide (need_bits ≤ capacity_bits),
        margin_bits := (capacity_bits : Int) - (need_bits : Int) }

/-! ## Claim C3: final partial bit group -/

/-- Bits of a group value below the group length bound. -/
theorem groupVal_lt (g : List Nat) : groupVal g < 2 ^ g.length := by
  induction g with
  | nil => simp [groupVal]
  | cons b t ih =>
    have hb : b &&& 1 ≤ 1 := Nat.and_le_right
    simp only [groupVal, List.length_cons, pow_succ]
    omega

/-- C3 claim artifact: on a final group with fewer than `n_lsb` available
bits the engine does not leave the uncovered low-order positions
unchanged.  With `n_lsb = 2`, one available bit 0 and a sample of value 2
(binary 10), the claim predicts bit 1 stays set (sample stays 2); the
code clears the whole 2-bit window and writes 0. -/
theorem _embed_bits_partial_cex :
    _embed_bits_into_samples [2] [0] 2 0 = ([0], 1) ∧
    ((((2 : Int) % 4).toNat >>> 1) &&& 1 = 1) ∧
    ((((0 : Int) % 4).toNat >>> 1) &&& 1 = 0) := by
  refine ⟨by decide, by decide, by decide⟩

/-- C3 (amended): when 0 < `len(bits)` < `n_lsb` bits remain, the engine
writes one final slot: the available bits go into the low positions and
the remaining positions of the `n_lsb`-bit window are zero-padded
(`groupVal bits < 2 ^ bits.length` forces the positions from
`bits.length` up to `n_lsb - 1` to zero), the loop then stops having
counted only the available bits. -/
theorem _embed_bits_partial_amended (samples : List Int) (bits : List Nat)
    (n start : Nat) (hN : samples.length ≠ 0) (hlen : bits.length ≠ 0)
    (hpart : bits.length < n) :
    _embed_bits_into_samples samples bits n start =
      (samples.set (start % samples.length)
        (writeSlot n (samples.getD (start % samples.length) 0) (groupVal bits)),
       bits.length) ∧
    groupVal bits < 2 ^ bits.length := by
  refine ⟨?_, groupVal_lt bits⟩
  unfold _embed_bits_into_samples
  rw [if_neg hN]
  unfold embedLoop
  obtain ⟨m, hm⟩ : ∃ m, bits.length = m + 1 := ⟨bits.length - 1, by omega⟩
  rw [hm, embedLoopF]
  have htake : bits.take n = bits := List.take_of_length_le (le_of_lt hpart)
  rw [if_neg (by rw [htake]; exact hlen)]
  simp only [htake]
  rw [if_pos hpart, hm]

/-- Witness for the amended C3 theorem. -/
theorem _embed_bits_partial_amended_witness :
    _embed_bits_into_samples [5, 7] [1] 3 1 =
      ([5, writeSlot 3 7 (groupVal [1])], 1) ∧
    groupVal [1] < 2 ^ (1 : Nat) :=
  _embed_bits_partial_amended [5, 7] [1] 3 1 (by decide) (by decide) (by decide)

/-! ## Claim C10: length gate of the candidate search -/

/-- C10: a candidate attempt returns None whenever the 32-bit big-endian
length decoded at the candidate's start position is zero (the decoded
value is an unsigned int, so `<= 0` means `= 0`) or exceeds
134217728 bytes = 128 MiB, regardless of everything else in the carrier. -/
theorem _try_extract_length_gate (samples : List Int) (key : List Nat)
    (n_lsb : Nat) (use_rand_start : Bool)
    (h : u32beDec (_extract_bits_from_samples samples 32 n_lsb
          (start_index_from_seed samples.length
            (if use_rand_start then seed_from_key key else 0))) = 0 ∨
         u32beDec (_extract_bits_from_samples samples 32 n_lsb
          (start_index_from_seed samples.length
            (if use_rand_start then seed_from_key key else 0))) > 134217728) :
    _try_extract_with_params samples key n_lsb use_rand_start = PRes.ok none := by
  unfold _try_extract_with_params
  dsimp only
  by_cases h4 : (_extract_bits_from_samples samples 32 n_lsb
      (start_index_from_seed samples.length
        (if use_rand_start then seed_from_key key else 0))).length < 4
  · rw [if_pos h4]
  · rw [if_neg h4, if_pos h]

/-- Witness for the C10 gate theorem: an all-zero carrier decodes length
zero at the first candidate position and is rejected. -/
theorem _try_extract_length_gate_witness :
    _try_extract_with_params (List.replicate 40 0) [107] 1 false = PRes.ok none :=
  _try_extract_length_gate (List.replicate 40 0) [107] 1 false (by decide)

/-! ## MPEG frame scanner (src/src/stego/mp3stream.py, src/src/core/mp3_parser.py) -/

/-- One scanned MPEG frame (src/src/stego/mp3stream.py). -/
structure Frame where
  offset : Nat
  size : Nat
  channels : Nat
  padding : Nat
deriving DecidableEq

/-- Bitrate lookup (kbps) for MPEG-1 Layer III; the reserved indices 0 and
15 are rejected before lookup. -/
def BITRATES (i : Nat) : Nat :=
  match i with
  | 1 => 32 | 2 => 40 | 3 => 48 | 4 => 56 | 5 => 64 | 6 => 80 | 7 => 96
  | 8 => 112 | 9 => 128 | 10 => 160 | 11 => 192 | 12 => 224 | 13 => 256
  | 14 => 320 | _ => 0

/-- Samplerate lookup; the reserved index 3 is rejected before lookup. -/
def SAMPLERATES (i : Nat) : Nat :=
  match i with
  | 0 => 44100 | 1 => 48000 | 2 => 32000 | _ => 0

/-- Model of the scanning loop of `MP3Stream._scan`
(src/src/stego/mp3stream.py): while at least 4 bytes remain at `i`, check
the sync pattern `0xFF / 111xxxxx` and the header fields; a candidate
failing version/layer, a reserved bitrate/samplerate index, or whose
computed frame length is zero or extends past the end of the buffer is
skipped by advancing one byte; an accepted frame is recorded and the scan
jumps over its `frame_len` bytes. -/
def scanLoopF (data : List Nat) (fuel : Nat) (i : Nat) : List Frame :=
  match fuel with
  | 0 => []
  | fuel + 1 =>
    if i + 4 ≤ data.length then
      if (data.getD i 0 = 0xFF ∧ (data.getD (i + 1) 0) &&& 0xE0 = 0xE0) then
        if ((data.getD (i + 1) 0) >>> 3) &&& 3 ≠ 3 ∨ ((data.getD (i + 1) 0) >>> 1) &&& 3 ≠ 1 then
          scanLoopF data fuel (i + 1)
        else if ((data.getD (i + 2) 0) >>> 4) &&& 15 = 0 ∨
            ((data.getD (i + 2) 0) >>> 4) &&& 15 = 15 ∨
            ((data.getD (i + 2) 0) >>> 2) &&& 3 = 3 then
          scanLoopF data fuel (i + 1)
        else if (144 * (BITRATES (((data.getD (i + 2) 0) >>> 4) &&& 15) * 1000))
              / SAMPLERATES (((data.getD (i + 2) 0) >>> 2) &&& 3)
              + (((data.getD (i + 2) 0) >>> 1) &&& 1) = 0 ∨
            i + ((144 * (BITRATES (((data.getD (i + 2) 0) >>> 4) &&& 15) * 1000))
              / SAMPLERATES (((data.getD (i + 2) 0) >>> 2) &&& 3)
              + (((data.getD (i + 2) 0) >>> 1) &&& 1)) > data.length then
          scanLoopF data fuel (i + 1)
        else
          { offset := i,
            size := (144 * (BITRATES (((data.getD (i + 2) 0) >>> 4) &&& 15) * 1000))
              / SAMPLERATES (((data.getD (i + 2) 0) >>> 2) &&& 3)
              + (((data.getD (i + 2) 0) >>> 1) &&& 1),
            channels := if ((data.getD (i + 3) 0) >>> 6) &&& 3 = 3 then 1 else 2,
            padding := ((data.getD (i + 2) 0) >>> 1) &&& 1 } ::
            scanLoopF data fuel
              (i + ((144 * (BITRATES (((data.getD (i + 2) 0) >>> 4) &&& 15) * 1000))
                / SAMPLERATES (((data.getD (i + 2) 0) >>> 2) &&& 3)
                + (((data.getD (i + 2) 0) >>> 1) &&& 1)))
      else scanLoopF data fuel (i + 1)
    else []

/-- The scanning loop of `MP3Stream._scan`; the fuel (one unit per loop
iteration, any value at least `data.length + 1 - i` suffices because `i`
strictly increases while `i + 4 <= len` holds) makes the recursion
structural. -/
def scanLoop (data : List Nat) (i : Nat) : List Frame :=
  scanLoopF data (data.length + 1) i

/-- Model of `MP3Stream._scan` (src/src/stego/mp3stream.py): skip a
leading ID3v2 tag (sync-safe 28-bit size at bytes 6..9), then scan. -/
def MP3Stream_frames (data : List Nat) : List Frame :=
  if 10 ≤ data.length ∧ data.take 3 = [0x49, 0x44, 0x33] then
    scanLoop data (10 + (((data.getD 6 0 &&& 0x7F) <<< 21) |||
      ((data.getD 7 0 &&& 0x7F) <<< 14) |||
      ((data.getD 8 0 &&& 0x7F) <<< 7) ||| (data.getD 9 0 &&& 0x7F)))
  else scanLoop data 0

/-- One frame record of the core parser (src/src/core/mp3_parser.py),
recording the side-info length instead of the padding bit. -/
structure CoreFrame where
  offset : Nat
  size : Nat
  channels : Nat
  side_info_len : Nat
deriving DecidableEq

/-- Model of `MP3Stream._parse` (src/src/core/mp3_parser.py).  Its
scanning control flow — ID3 skip, sync check, version/layer check,
reserved-index check, frame-length bound check, advance-by-one on
rejection, jump-by-frame-length on acceptance — is line for line the same
as `_scan` above, so its frames are the same scan's frames with the
side-info length derived from the channel count. -/
def MP3Parser_frames (data : List Nat) : List CoreFrame :=
  (MP3Stream_frames data).map fun f =>
    { offset := f.offset, size := f.size, channels := f.channels,
      side_info_len := if f.channels = 1 then 17 else 32 }

/-- Every frame recorded by the scan loop lies within the buffer,
whatever the fuel. -/
theorem scanLoopF_bounds (data : List Nat) (fuel : Nat) :
    ∀ i, ∀ f ∈ scanLoopF data fuel i, f.offset + f.size ≤ data.length := by
  induction fuel with
  | zero =>
    intro i f hf
    cases hf
  | succ fuel ih =>
    intro i f hf
    rw [scanLoopF] at hf
    by_cases h1 : i + 4 ≤ data.length
    case neg =>
      rw [if_neg h1] at hf
      cases hf
    rw [if_pos h1] at hf
    by_cases h2 : (data.getD i 0 = 0xFF ∧ (data.getD (i + 1) 0) &&& 0xE0 = 0xE0)
    case neg =>
      rw [if_neg h2] at hf
      exact ih _ f hf
    rw [if_pos h2] at hf
    by_cases h3 : (((data.getD (i + 1) 0) >>> 3) &&& 3 ≠ 3 ∨
        ((data.getD (i + 1) 0) >>> 1) &&& 3 ≠ 1)
    case pos =>
      rw [if_pos h3] at hf
      exact ih _ f hf
    rw [if_neg h3] at hf
    by_cases h4 : (((data.getD (i + 2) 0) >>> 4) &&& 15 = 0 ∨
        ((data.getD (i + 2) 0) >>> 4) &&& 15 = 15 ∨
        ((data.getD (i + 2) 0) >>> 2) &&& 3 = 3)
    case pos =>
      rw [if_pos h4] at hf
      exact ih _ f hf
    rw [if_neg h4] at hf
    by_cases h5 : ((144 * (BITRATES (((data.getD (i + 2) 0) >>> 4) &&& 15) * 1000))
          / SAMPLERATES (((data.getD (i + 2) 0) >>> 2) &&& 3)
          + (((data.getD (i + 2) 0) >>> 1) &&& 1) = 0 ∨
        i + ((144 * (BITRATES (((data.getD (i + 2) 0) >>> 4) &&& 15) * 1000))
          / SAMPLERATES (((data.getD (i + 2) 0) >>> 2) &&& 3)
          + (((data.getD (i + 2) 0) >>> 1) &&& 1)) > data.length)
    case pos =>
      rw [if_pos h5] at hf
      exact ih _ f hf
    rw [if_neg h5] at hf
    rcases List.mem_cons.mp hf with hhead | htail
    · subst hhead
      push_neg at h5
      exact h5.2
    · exact ih _ f htail

/-- C9: every frame recorded by either MPEG frame scanner satisfies
`offset + size <= length of the stream`; a sync candidate whose computed
frame length is zero or would extend past the end of the buffer is
skipped and never recorded. -/
theorem mp3_frame_bounds (data : List Nat) :
    (∀ f ∈ MP3Stream_frames data, f.offset + f.size ≤ data.length) ∧
    (∀ f ∈ MP3Parser_frames data, f.offset + f.size ≤ data.length) := by
  have hs : ∀ i, ∀ f ∈ scanLoop data i, f.offset + f.size ≤ data.length :=
    fun i => scanLoopF_bounds data (data.length + 1) i
  constructor
  · intro f hf
    unfold MP3Stream_frames at hf
    split_ifs at hf
    · exact hs _ f hf
    · exact hs _ f hf
  · intro f hf
    unfold MP3Parser_frames at hf
    rcases List.mem_map.mp hf with ⟨g, hg, hgf⟩
    have hb : g.offset + g.size ≤ data.length := by
      unfold MP3Stream_frames at hg
      split_ifs at hg
      · exact hs _ g hg
      · exact hs _ g hg
    subst hgf
    exact hb

/-- Witness for the C9 bounds theorem: the one frame scanned out of a
concrete 96-byte stream (MPEG-1 Layer III header `FF FB 14 00`: bitrate
32 kbps, samplerate 48000, no padding, frame length 96) lies within the
stream. -/
theorem mp3_frame_bounds_witness :
    ({ offset := 0, size := 96, channels := 2, padding := 0 } : Frame) ∈
      MP3Stream_frames ([255, 251, 20, 0] ++ List.replicate 92 0) ∧
    (0 : Nat) + 96 ≤ ([255, 251, 20, 0] ++ List.replicate 92 (0 : Nat)).length :=
  ⟨by decide, (mp3_frame_bounds ([255, 251, 20, 0] ++ List.replicate 92 0)).1
    { offset := 0, size := 96, channels := 2, padding := 0 } (by decide)⟩

/-! ## Round-trip lemmas: slots, groups, byte packing -/

/-- Reading back the low `n` bits of a written slot returns the written
value (for `n` up to 15, which covers `n_lsb` in 1..4). -/
theorem writeSlot_read (n : Nat) (s : Int) (v : Nat) (hn : n ≤ 15) (hv : v < 2 ^ n) :
    ((writeSlot n s v) % ((2 : Int) ^ n)).toNat = v := by
  unfold writeSlot
  have h2 : ((2 : Int) ^ n) ∣ 65536 := by
    have he : (65536 : Int) = 2 ^ 16 := by norm_num
    rw [he]
    exact pow_dvd_pow 2 (by omega)
  have key : ∀ y : Int, (y % 65536 - 32768) % ((2 : Int) ^ n) = (y - 32768) % ((2 : Int) ^ n) := by
    intro y
    rw [Int.sub_emod, Int.emod_emod_of_dvd _ h2, ← Int.sub_emod]
  rw [key]
  have h4 : (s - s % ((2 : Int) ^ n) + (v : Int) + 32768 - 32768)
      = s - s % ((2 : Int) ^ n) + v := by ring
  rw [h4]
  have h5 : ((2 : Int) ^ n) ∣ (s - s % ((2 : Int) ^ n)) := Int.dvd_sub_of_emod_eq rfl
  rw [Int.add_emod, Int.emod_eq_zero_of_dvd h5]
  simp only [Int.zero_add]
  rw [Int.emod_emod_of_dvd _ (dvd_refl _),
    Int.emod_eq_of_lt (by positivity) (by exact_mod_cast hv)]
  exact Int.toNat_natCast v

/-- Extracting the low bits of a group value, LSB first, returns the
group (for 0/1-valued bit streams). -/
theorem groupVal_bits (g : List Nat) (hg : ∀ b ∈ g, b ≤ 1) :
    (List.range g.length).map (fun j => ((groupVal g) >>> j) &&& 1) = g := by
  induction g with
  | nil => simp
  | cons b t ih =>
    have hb : b ≤ 1 := hg b (List.mem_cons_self b t)
    have hb1 : b &&& 1 = b := by
      rw [Nat.and_one_is_mod]
      omega
    simp only [List.length_cons, List.range_succ_eq_map, List.map_cons, List.map_map]
    rw [List.cons_eq_cons]
    constructor
    case _ =>
      show groupVal (b :: t) >>> 0 &&& 1 = b
      rw [Nat.shiftRight_zero, Nat.and_one_is_mod]
      simp only [groupVal, hb1]
      omega
    case _ =>
      have hcomp : ∀ j : Nat,
          (groupVal (b :: t)) >>> (j + 1) &&& 1 = (groupVal t) >>> j &&& 1 := by
        intro j
        rw [Nat.shiftRight_eq_div_pow, Nat.shiftRight_eq_div_pow]
        have : groupVal (b :: t) / 2 ^ (j + 1) = groupVal t / 2 ^ j := by
          rw [pow_succ, Nat.mul_comm (2 ^ j) 2, ← Nat.div_div_eq_div_mul]
          congr 1
          simp only [groupVal, hb1]
          omega
        rw [this]
      calc (List.range t.length).map ((fun j => groupVal (b :: t) >>> j &&& 1) ∘ (· + 1))
          = (List.range t.length).map (fun j => groupVal t >>> j &&& 1) := by
            apply List.map_congr_left
            intro j _
            exact hcomp j
        _ = t := ih (fun x hx => hg x (List.mem_cons_of_mem b hx))

set_option maxRecDepth 16000 in
/-- Packing the 8 MSB-first bits of a byte yields the byte back. -/
theorem byteOf_byteBits : ∀ b : Nat, b < 256 →
    byteOf [(b >>> 7) &&& 1, (b >>> 6) &&& 1, (b >>> 5) &&& 1, (b >>> 4) &&& 1,
            (b >>> 3) &&& 1, (b >>> 2) &&& 1, (b >>> 1) &&& 1, (b >>> 0) &&& 1] = b := by
  decide

/-- The bit expansion of one byte as an explicit list. -/
theorem byteBits_explicit (b : Nat) :
    byteBits b = [(b >>> 7) &&& 1, (b >>> 6) &&& 1, (b >>> 5) &&& 1, (b >>> 4) &&& 1,
                  (b >>> 3) &&& 1, (b >>> 2) &&& 1, (b >>> 1) &&& 1, (b >>> 0) &&& 1] := rfl

/-- Unpacking then packing bytes is the identity on byte sequences. -/
theorem bytes_from_bits_of_bytes (bs : List Nat) (hb : ∀ b ∈ bs, b < 256) :
    bytes_from_bits (bits_from_bytes bs) = bs := by
  induction bs with
  | nil => rfl
  | cons b t ih =>
    have hb0 : b < 256 := hb b (List.mem_cons_self b t)
    have hexp : bits_from_bytes (b :: t) =
        ((b >>> 7) &&& 1) :: ((b >>> 6) &&& 1) :: ((b >>> 5) &&& 1) :: ((b >>> 4) &&& 1) ::
        ((b >>> 3) &&& 1) :: ((b >>> 2) &&& 1) :: ((b >>> 1) &&& 1) :: ((b >>> 0) &&& 1) ::
        bits_from_bytes t := by
      simp [bits_from_bytes, byteBits_explicit]
    rw [hexp, bytes_from_bits, byteOf_byteBits b hb0,
      ih (fun x hx => hb x (List.mem_cons_of_mem b hx))]

/-- Bit streams of byte sequences have 0/1 entries. -/
theorem bits_from_bytes_le_one (bs : List Nat) : ∀ x ∈ bits_from_bytes bs, x ≤ 1 := by
  intro x hx
  unfold bits_from_bytes at hx
  rcases List.mem_flatMap.mp hx with ⟨b, _, hxb⟩
  unfold byteBits at hxb
  rcases List.mem_map.mp hxb with ⟨i, _, hib⟩
  subst hib
  have := Nat.and_le_right (n := b >>> (7 - i)) (m := 1)
  omega

/-- Length of the bit stream of a byte sequence. -/
theorem bits_from_bytes_length (bs : List Nat) :
    (bits_from_bytes bs).length = 8 * bs.length := by
  induction bs with
  | nil => rfl
  | cons b t ih =>
    have hexp : bits_from_bytes (b :: t) = byteBits b ++ bits_from_bytes t := by
      simp [bits_from_bytes]
    rw [hexp, List.length_append, ih, byteBits_explicit]
    simp [List.length_cons]
    ring

/-- Packing a prefix of the bit stream packs the byte prefix: taking
`8 * k` bits before packing equals taking `k` bytes after packing. -/
theorem bytes_from_bits_take (bits : List Nat) (k : Nat) (hk : 8 * k ≤ bits.length) :
    bytes_from_bits (bits.take (8 * k)) = (bytes_from_bits bits).take k := by
  induction bits using bytes_from_bits.induct generalizing k with
  | case1 =>
    simp at hk
    subst hk
    rfl
  | case2 b0 b1 b2 b3 b4 b5 b6 b7 rest ih =>
    match k with
    | 0 => rfl
    | k + 1 =>
      have hk8 : 8 * (k + 1) = (8 * k) + 8 := by ring
      simp only [List.length_cons] at hk
      rw [hk8]
      show bytes_from_bits (b0 :: b1 :: b2 :: b3 :: b4 :: b5 :: b6 :: b7 ::
        rest.take (8 * k)) = _
      rw [bytes_from_bits, bytes_from_bits, List.take_succ_cons, ih k (by omega)]
  | case3 tail h1 h2 =>
    match k with
    | 0 => rfl
    | k + 1 =>
      exfalso
      have hlen : tail.length < 8 := by
        rcases tail with _ | ⟨a0, _ | ⟨a1, _ | ⟨a2, _ | ⟨a3, _ | ⟨a4, _ | ⟨a5, _ |
          ⟨a6, _ | ⟨a7, t8⟩⟩⟩⟩⟩⟩⟩⟩
        all_goals first
          | (exfalso; exact h1 rfl)
          | (exfalso; exact h2 a0 a1 a2 a3 a4 a5 a6 a7 t8 rfl)
          | simp
      omega

/-! ## Round-trip lemmas: the read loop -/

/-- Reading zero bits yields nothing, whatever the fuel. -/
theorem bitsReadF_zero (samples : List Int) (n : Nat) (fuel idx : Nat) :
    bitsReadF samples n fuel 0 idx = [] := by
  cases fuel with
  | zero => rfl
  | succ fuel => rw [bitsReadF, if_pos (Or.inl rfl)]

/-- The read loop is fuel-insensitive once the fuel covers the need. -/
theorem bitsReadF_fuel (samples : List Int) (n : Nat) (hn : n ≠ 0) :
    ∀ fuel1 fuel2 need idx, need ≤ fuel1 → need ≤ fuel2 →
      bitsReadF samples n fuel1 need idx = bitsReadF samples n fuel2 need idx := by
  intro fuel1
  induction fuel1 with
  | zero =>
    intro fuel2 need idx h1 h2
    have : need = 0 := by omega
    subst this
    rw [bitsReadF_zero, bitsReadF_zero]
  | succ fuel1 ih =>
    intro fuel2 need idx h1 h2
    cases need with
    | zero => rw [bitsReadF_zero, bitsReadF_zero]
    | succ m =>
      obtain ⟨f2, rfl⟩ : ∃ f2, fuel2 = f2 + 1 := ⟨fuel2 - 1, by omega⟩
      rw [bitsReadF, bitsReadF]
      have hc : ¬(m + 1 = 0 ∨ n = 0) := by
        push_neg
        exact ⟨by omega, hn⟩
      rw [if_neg hc, if_neg hc]
      dsimp only
      congr 1
      apply ih
      · omega
      · omega

/-- The number of collected bits equals the need. -/
theorem bitsReadF_length (samples : List Int) (n : Nat) (hn : n ≠ 0) :
    ∀ fuel need idx, need ≤ fuel →
      (bitsReadF samples n fuel need idx).length = need := by
  intro fuel
  induction fuel with
  | zero =>
    intro need idx h1
    have : need = 0 := by omega
    subst this
    rw [bitsReadF_zero]
    rfl
  | succ fuel ih =>
    intro need idx h1
    cases need with
    | zero => rw [bitsReadF_zero]; rfl
    | succ m =>
      rw [bitsReadF]
      have hc : ¬(m + 1 = 0 ∨ n = 0) := by
        push_neg
        exact ⟨by omega, hn⟩
      rw [if_neg hc]
      rw [List.length_append, List.length_map, List.length_range,
        ih (m + 1 - min n (m + 1)) _ (by omega)]
      omega

/-- Taking a prefix of a mapped range is the mapped shorter range. -/
theorem take_map_range (f : Nat → Nat) (k j : Nat) (hkj : k ≤ j) :
    ((List.range j).map f).take k = (List.range k).map f := by
  rw [← List.map_take, List.take_range, min_eq_left hkj]

/-- Reading fewer bits reads a prefix: `k <= m` bits from the same start
are the first `k` of the `m`-bit read. -/
theorem bitsReadF_take (samples : List Int) (n : Nat) (hn : n ≠ 0) :
    ∀ fuel k m idx, k ≤ m → m ≤ fuel →
      bitsReadF samples n fuel k idx = (bitsReadF samples n fuel m idx).take k := by
  intro fuel
  induction fuel with
  | zero =>
    intro k m idx hkm hm
    have hk : k = 0 := by omega
    subst hk
    rw [bitsReadF_zero]
    rfl
  | succ fuel ih =>
    intro k m idx hkm hm
    cases k with
    | zero => rw [bitsReadF_zero]; rfl
    | succ k0 =>
      obtain ⟨m0, rfl⟩ : ∃ m0, m = m0 + 1 := ⟨m - 1, by omega⟩
      rw [bitsReadF, bitsReadF]
      have hck : ¬(k0 + 1 = 0 ∨ n = 0) := by push_neg; exact ⟨by omega, hn⟩
      have hcm : ¬(m0 + 1 = 0 ∨ n = 0) := by push_neg; exact ⟨by omega, hn⟩
      rw [if_neg hck, if_neg hcm]
      dsimp only
      rw [List.take_append_eq_append_take]
      have hchunklen : ((List.range (min n (m0 + 1))).map
          (fun j => ((((samples.getD idx 0) % ((2 : Int) ^ n)).toNat) >>> j) &&& 1)).length
          = min n (m0 + 1) := by
        rw [List.length_map, List.length_range]
      rw [hchunklen]
      by_cases hkn : k0 + 1 < n
      · have hmin_k : min n (k0 + 1) = k0 + 1 := min_eq_right (by omega)
        have hkm2 : k0 + 1 ≤ min n (m0 + 1) := le_min (by omega) (by omega)
        rw [hmin_k, Nat.sub_self, bitsReadF_zero,
          Nat.sub_eq_zero_of_le hkm2, List.take_zero,
          take_map_range _ (k0 + 1) (min n (m0 + 1)) hkm2]
      · have hmin_k : min n (k0 + 1) = n := min_eq_left (by omega)
        have hmin_m : min n (m0 + 1) = n := min_eq_left (by omega)
        rw [hmin_k, hmin_m]
        have htake_all : ((List.range n).map
            (fun j => ((((samples.getD idx 0) % ((2 : Int) ^ n)).toNat) >>> j) &&& 1)).take (k0 + 1)
            = (List.range n).map
              (fun j => ((((samples.getD idx 0) % ((2 : Int) ^ n)).toNat) >>> j) &&& 1) := by
          apply List.take_of_length_le
          rw [List.length_map, List.length_range]
          omega
        rw [htake_all]
        congr 1
        exact ih (k0 + 1 - n) (m0 + 1 - n) _ (by omega) (by omega)

/-! ## Round-trip lemmas: the write loop -/

/-- Cyclic forward distance from slot `idx` to slot `j` among `N` slots. -/
def distSlots (N idx j : Nat) : Nat := if idx ≤ j then j - idx else N + j - idx

theorem distSlots_self (N idx : Nat) : distSlots N idx idx = 0 := by
  unfold distSlots
  simp

theorem distSlots_step (N idx j : Nat) (hidx : idx < N) (hj : j < N) (hne : j ≠ idx) :
    distSlots N (if idx + 1 = N then 0 else idx + 1) j = distSlots N idx j - 1 ∧
    1 ≤ distSlots N idx j := by
  unfold distSlots
  split_ifs <;> omega

theorem distSlots_back (N idx : Nat) (hidx : idx < N) :
    distSlots N (if idx + 1 = N then 0 else idx + 1) idx = N - 1 := by
  unfold distSlots
  split_ifs <;> omega

/-- The write loop preserves the number of samples. -/
theorem embedLoopF_length (N n : Nat) :
    ∀ fuel samples bits idx,
      (embedLoopF N n fuel samples bits idx).1.length = samples.length := by
  intro fuel
  induction fuel with
  | zero => intro samples bits idx; rfl
  | succ fuel ih =>
    intro samples bits idx
    rw [embedLoopF]
    dsimp only
    by_cases h1 : (bits.take n).length = 0
    · rw [if_pos h1]
    · rw [if_neg h1]
      by_cases h2 : (bits.take n).length < n
      · rw [if_pos h2]
        exact List.length_set samples idx _
      · rw [if_neg h2]
        dsimp only
        rw [ih, List.length_set]

/-- With enough fuel, the write loop reports every payload bit written. -/
theorem embedLoopF_written (N n : Nat) (hn : n ≠ 0) :
    ∀ fuel samples bits idx, bits.length ≤ fuel →
      (embedLoopF N n fuel samples bits idx).2 = bits.length := by
  intro fuel
  induction fuel with
  | zero =>
    intro samples bits idx h1
    have hb : bits = [] := List.eq_nil_of_length_eq_zero (by omega)
    subst hb
    rfl
  | succ fuel ih =>
    intro samples bits idx h1
    rw [embedLoopF]
    dsimp only
    by_cases h1' : (bits.take n).length = 0
    · rw [if_pos h1']
      simp only [List.length_take] at h1'
      simp only []
      omega
    · rw [if_neg h1']
      by_cases h2' : (bits.take n).length < n
      · rw [if_pos h2']
        simp only [List.length_take] at h1' h2' ⊢
        omega
      · rw [if_neg h2']
        dsimp only
        simp only [List.length_take] at h1' h2' ⊢
        rw [ih _ (bits.drop n) _ (by simp only [List.length_drop]; omega)]
        simp only [List.length_drop]
        omega

/-- Slots at cyclic distance at least the number of written groups are
untouched by the write loop. -/
theorem embedLoopF_untouched (N n : Nat) (hn : n ≠ 0) :
    ∀ fuel samples bits idx j, samples.length = N → idx < N → j < N →
      bits.length ≤ n * distSlots N idx j → bits.length ≤ fuel →
      (embedLoopF N n fuel samples bits idx).1[j]? = samples[j]? := by
  intro fuel
  induction fuel with
  | zero => intro samples bits idx j _ _ _ _ _; rfl
  | succ fuel ih =>
    intro samples bits idx j hsam hidx hj hd hfuel
    rw [embedLoopF]
    dsimp only
    by_cases h1 : (bits.take n).length = 0
    · rw [if_pos h1]
    · rw [if_neg h1]
      simp only [List.length_take] at h1
      have hblen : bits.length ≠ 0 := by omega
      have hdist1 : 1 ≤ distSlots N idx j := by
        rcases Nat.eq_zero_or_pos (distSlots N idx j) with hz | hp
        · rw [hz, Nat.mul_zero] at hd
          omega
        · omega
      have hne : j ≠ idx := by
        intro hji
        subst hji
        rw [distSlots_self] at hdist1
        omega
      by_cases h2 : (bits.take n).length < n
      · rw [if_pos h2]
        exact List.getElem?_set_ne (fun hc => hne hc.symm)
      · rw [if_neg h2]
        dsimp only
        simp only [List.length_take] at h2
        have hstep := distSlots_step N idx j hidx hj hne
        have hidx2 : (if idx + 1 = N then 0 else idx + 1) < N := by
          split_ifs <;> omega
        have hd2 : (bits.drop n).length ≤
            n * distSlots N (if idx + 1 = N then 0 else idx + 1) j := by
          rw [List.length_drop, hstep.1]
          obtain ⟨d0, hd0⟩ : ∃ d0, distSlots N idx j = d0 + 1 :=
            ⟨distSlots N idx j - 1, by omega⟩
          rw [hd0] at hd ⊢
          rw [Nat.mul_succ] at hd
          simp only [Nat.add_sub_cancel]
          omega
        rw [ih _ (bits.drop n) _ j (by rw [List.length_set]; exact hsam) hidx2 hj hd2
          (by simp only [List.length_drop]; omega)]
        exact List.getElem?_set_ne (fun hc => hne hc.symm)

/-- Central round-trip lemma: reading back `bits.length` bits starting at
the write position returns exactly the written bit stream.  Capacity
`bits.length <= n * N` guarantees the cyclic write never revisits a
slot. -/
theorem embed_readback (n : Nat) (hn1 : 1 ≤ n) (hn15 : n ≤ 15) :
    ∀ (fuel : Nat) (samples : List Int) (bits : List Nat) (idx : Nat),
      samples.length ≠ 0 → idx < samples.length →
      (∀ b ∈ bits, b ≤ 1) → bits.length ≤ fuel →
      bits.length ≤ n * samples.length →
      bitsRead (embedLoopF samples.length n fuel samples bits idx).1 n bits.length idx
        = bits := by
  intro fuel
  induction fuel with
  | zero =>
    intro samples bits idx hN hidx hb hfuel hcap
    have hbe : bits = [] := List.eq_nil_of_length_eq_zero (by omega)
    subst hbe
    rfl
  | succ fuel ih =>
    intro samples bits idx hN hidx hb hfuel hcap
    rcases Nat.eq_zero_or_pos bits.length with hbl | hbl
    · have hbe : bits = [] := List.eq_nil_of_length_eq_zero hbl
      subst hbe
      rfl
    · rw [embedLoopF]
      dsimp only
      have htake_len : (bits.take n).length = min n bits.length := List.length_take n bits
      have h1 : ¬((bits.take n).length = 0) := by rw [htake_len]; omega
      rw [if_neg h1]
      by_cases h2 : (bits.take n).length < n
      · rw [if_pos h2]
        rw [htake_len] at h2
        have hblen : bits.length < n := by omega
        have htake : bits.take n = bits := List.take_of_length_le (by omega)
        rw [htake]
        obtain ⟨m, hm⟩ : ∃ m, bits.length = m + 1 := ⟨bits.length - 1, by omega⟩
        unfold bitsRead
        rw [hm, bitsReadF]
        rw [if_neg (by push_neg; constructor <;> omega)]
        dsimp only
        have hset : (samples.set idx (writeSlot n (samples.getD idx 0) (groupVal bits))).getD idx 0
            = writeSlot n (samples.getD idx 0) (groupVal bits) := by
          rw [List.getD_eq_getElem?_getD, List.getElem?_set_eq_of_lt _ hidx]
          rfl
        rw [hset]
        have hv : ((writeSlot n (samples.getD idx 0) (groupVal bits)) % ((2 : Int) ^ n)).toNat
            = groupVal bits :=
          writeSlot_read n _ _ hn15
            (lt_of_lt_of_le (groupVal_lt bits) (Nat.pow_le_pow_right (by omega) (by omega)))
        rw [hv]
        have hmin : min n (m + 1) = m + 1 := by omega
        rw [hmin, Nat.sub_self, bitsReadF_zero, List.append_nil, ← hm]
        exact groupVal_bits bits hb
      · rw [if_neg h2]
        dsimp only
        rw [htake_len] at h2
        have hfull : (bits.take n).length = n := by rw [htake_len]; omega
        have hblen_ge : n ≤ bits.length := by omega
        have hs2len : (samples.set idx
            (writeSlot n (samples.getD idx 0) (groupVal (bits.take n)))).length
            = samples.length := List.length_set samples idx _
        have hrlen : (embedLoopF samples.length n fuel
            (samples.set idx (writeSlot n (samples.getD idx 0) (groupVal (bits.take n))))
            (bits.drop n) (if idx + 1 = samples.length then 0 else idx + 1)).1.length
            = samples.length := by
          rw [embedLoopF_length, hs2len]
        have hidx2lt : (if idx + 1 = samples.length then 0 else idx + 1) < samples.length := by
          split_ifs <;> omega
        obtain ⟨N0, hN0⟩ : ∃ N0, samples.length = N0 + 1 := ⟨samples.length - 1, by omega⟩
        have hcap2 : (bits.drop n).length ≤ n * samples.length := by
          rw [List.length_drop]
          omega
        have hdistback : distSlots samples.length
            (if idx + 1 = samples.length then 0 else idx + 1) idx = samples.length - 1 :=
          distSlots_back samples.length idx hidx
        have huntouched : (embedLoopF samples.length n fuel
            (samples.set idx (writeSlot n (samples.getD idx 0) (groupVal (bits.take n))))
            (bits.drop n) (if idx + 1 = samples.length then 0 else idx + 1)).1[idx]?
            = (samples.set idx
              (writeSlot n (samples.getD idx 0) (groupVal (bits.take n))))[idx]? := by
          apply embedLoopF_untouched samples.length n (by omega) fuel _ _ _ idx hs2len
            hidx2lt hidx
          · rw [List.length_drop, hdistback, hN0]
            simp only [Nat.add_sub_cancel]
            rw [hN0] at hcap
            rw [Nat.mul_succ] at hcap
            omega
          · rw [List.length_drop]
            omega
        -- unfold one read step
        obtain ⟨m, hm⟩ : ∃ m, bits.length = m + 1 := ⟨bits.length - 1, by omega⟩
        unfold bitsRead
        rw [hm, bitsReadF]
        rw [if_neg (by push_neg; constructor <;> omega)]
        dsimp only
        have hslotval : (embedLoopF samples.length n fuel
            (samples.set idx (writeSlot n (samples.getD idx 0) (groupVal (bits.take n))))
            (bits.drop n) (if idx + 1 = samples.length then 0 else idx + 1)).1.getD idx 0
            = writeSlot n (samples.getD idx 0) (groupVal (bits.take n)) := by
          rw [List.getD_eq_getElem?_getD, huntouched,
            List.getElem?_set_eq_of_lt _ hidx]
          rfl
        rw [hslotval]
        have hv : ((writeSlot n (samples.getD idx 0) (groupVal (bits.take n)))
            % ((2 : Int) ^ n)).toNat = groupVal (bits.take n) :=
          writeSlot_read n _ _ hn15
            (lt_of_lt_of_le (groupVal_lt (bits.take n))
              (Nat.pow_le_pow_right (by omega) (by rw [hfull])))
        rw [hv]
        have hmin : min n (m + 1) = n := by omega
        rw [hmin]
        have hchunk : (List.range n).map
            (fun j => ((groupVal (bits.take n)) >>> j) &&& 1) = bits.take n := by
          have := groupVal_bits (bits.take n)
            (fun b hbm => hb b (List.mem_of_mem_take hbm))
          rw [hfull] at this
          exact this
        rw [hchunk, hrlen]
        have hrest : bitsReadF (embedLoopF samples.length n fuel
            (samples.set idx (writeSlot n (samples.getD idx 0) (groupVal (bits.take n))))
            (bits.drop n) (if idx + 1 = samples.length then 0 else idx + 1)).1 n m
            (m + 1 - n) (if idx + 1 = samples.length then 0 else idx + 1)
            = bits.drop n := by
          have hfeq : bitsReadF (embedLoopF samples.length n fuel
              (samples.set idx (writeSlot n (samples.getD idx 0) (groupVal (bits.take n))))
              (bits.drop n) (if idx + 1 = samples.length then 0 else idx + 1)).1 n m
              (m + 1 - n) (if idx + 1 = samples.length then 0 else idx + 1)
              = bitsRead (embedLoopF samples.length n fuel
              (samples.set idx (writeSlot n (samples.getD idx 0) (groupVal (bits.take n))))
              (bits.drop n) (if idx + 1 = samples.length then 0 else idx + 1)).1 n
              (m + 1 - n) (if idx + 1 = samples.length then 0 else idx + 1) := by
            apply bitsReadF_fuel _ _ (by omega)
            · omega
            · omega
          rw [hfeq]
          have hdlen : (bits.drop n).length = m + 1 - n := by
            rw [List.length_drop, hm]
          have hihapp := ih (samples.set idx
              (writeSlot n (samples.getD idx 0) (groupVal (bits.take n))))
            (bits.drop n) (if idx + 1 = samples.length then 0 else idx + 1)
            (by rw [hs2len]; exact hN)
            (by rw [hs2len]; exact hidx2lt)
            (fun b hbm => hb b (List.mem_of_mem_drop hbm))
            (by rw [List.length_drop]; omega)
            (by rw [hs2len]; exact hcap2)
          rw [hs2len, hdlen] at hihapp
          exact hihapp
        rw [hrest, List.take_append_drop]

/-! ## Support lemmas for the full pipeline round trip -/

/-- Reading fewer bits is a prefix of reading more, from the same start. -/
theorem bitsRead_take (samples : List Int) (n : Nat) (hn : n ≠ 0)
    (k m idx : Nat) (hkm : k ≤ m) :
    bitsRead samples n k idx = (bitsRead samples n m idx).take k := by
  unfold bitsRead
  rw [bitsReadF_fuel samples n hn k m k idx (le_refl k) hkm,
    bitsReadF_take samples n hn m k m idx hkm (le_refl m)]

/-- The start index is always a valid slot index. -/
theorem start_index_lt (N seed : Nat) (hN : N ≠ 0) :
    start_index_from_seed N seed < N := by
  unfold start_index_from_seed
  rw [if_neg hN]
  exact Nat.mod_lt _ (by omega)

/-- Big-endian length prefix decodes to the encoded value. -/
theorem u32beDec_u32be (v : Nat) (hv : v < 4294967296) : u32beDec (u32be v) = v := by
  unfold u32be u32beDec
  dsimp only
  omega

/-- Cipher bytes are bytes. -/
theorem zipWith_and255_lt (l1 : List Nat) :
    ∀ l2, ∀ x ∈ List.zipWith (fun d k => (d + k) &&& 0xFF) l1 l2, x < 256 := by
  induction l1 with
  | nil => intro l2 x hx; simp at hx
  | cons d t ih =>
    intro l2 x hx
    cases l2 with
    | nil => simp at hx
    | cons k kt =>
      rcases List.mem_cons.mp hx with hx1 | hx2
      · subst hx1
        show (d + k) &&& 0xFF < 256
        have : (d + k) &&& 0xFF ≤ 0xFF := Nat.and_le_right
        omega
      · exact ih kt x hx2

/-- Encryption with a non-empty key succeeds, preserves length, produces
bytes, and is undone by decryption with the same key. -/
theorem vigenere256_encrypt_ok (data key : List Nat) (hkey : key ≠ []) :
    ∃ body, vigenere256_encrypt data key = PRes.ok body ∧ body.length = data.length ∧
      (∀ b ∈ body, b < 256) ∧
      ((∀ b ∈ data, b < 256) → vigenere256_decrypt body key = PRes.ok data) := by
  have hks := _keystream_length key data.length hkey
  refine ⟨data.zipWith (fun d k => (d + k) &&& 0xFF) (_keystream key data.length),
    ?_, ?_, ?_, ?_⟩
  · unfold vigenere256_encrypt
    rw [if_pos (le_of_eq hks.symm)]
  · rw [List.length_zipWith, hks, min_self]
  · exact zipWith_and255_lt data (_keystream key data.length)
  · intro hdata
    have hinv := (vigenere256_involutionAux data key hkey hdata).1
    have henc : vigenere256_encrypt data key = PRes.ok
        (data.zipWith (fun d k => (d + k) &&& 0xFF) (_keystream key data.length)) := by
      unfold vigenere256_encrypt
      rw [if_pos (le_of_eq hks.symm)]
    rw [henc] at hinv
    exact hinv

/-- The flags byte is below 256. -/
theorem flags_lt (enc rnd : Bool) :
    ((if enc then FLAG_ENC else 0) ||| (if rnd then FLAG_RND else 0)) < 256 := by
  cases enc <;> cases rnd <;> decide

/-- Core pipeline lemma: under the stated bounds, embedding succeeds, and
the extraction candidate that matches the embedding parameters reads the
container back verbatim — for any extraction key whose derived start
index coincides with the embedding key's (the start does not depend on
the key at all when `rnd = false`).  The final decryption step is left
symbolic so that both the encrypted and the plain case follow. -/
theorem embed_then_extract_core (samples : List Int) (secret body name ext key : List Nat)
    (n : Nat) (enc rnd : Bool)
    (hn1 : 1 ≤ n) (hn4 : n ≤ 4)
    (hencbody : (if enc then vigenere256_encrypt secret key else PRes.ok secret)
      = PRes.ok body)
    (hbodylen : body.length = secret.length)
    (hbodyb : ∀ b ∈ body, b < 256)
    (hnameb : ∀ b ∈ name, b < 256) (hextb : ∀ b ∈ ext, b < 256)
    (hnl : name.length < 65536) (hel : ext.length < 256)
    (hgate : 14 + name.length + ext.length + secret.length ≤ 134217728)
    (hcap : (4 + (14 + name.length + ext.length + secret.length)) * 8
      ≤ samples.length * n)
    (hN : samples.length ≠ 0) :
    ∃ stego, embed_to_file samples secret name ext key n enc rnd = PRes.ok stego ∧
      stego.length = samples.length ∧
      ∀ key2 : List Nat,
        start_index_from_seed samples.length (if rnd then seed_from_key key2 else 0)
          = start_index_from_seed samples.length (if rnd then seed_from_key key else 0) →
        _try_extract_with_params stego key2 n rnd =
          (if ((if enc then FLAG_ENC else 0) ||| (if rnd then FLAG_RND else 0)) &&& FLAG_ENC ≠ 0
           then
            match vigenere256_decrypt body key2 with
            | PRes.error e => PRes.error e
            | PRes.ok d => PRes.ok (some (d,
                { flags := (if enc then FLAG_ENC else 0) ||| (if rnd then FLAG_RND else 0),
                  n_lsb := n, payload_len := secret.length, name := name, ext := ext,
                  header_len := 14 + name.length + ext.length }))
           else PRes.ok (some (body,
                { flags := (if enc then FLAG_ENC else 0) ||| (if rnd then FLAG_RND else 0),
                  n_lsb := n, payload_len := secret.length, name := name, ext := ext,
                  header_len := 14 + name.length + ext.length }))) := by
  have hp32 : body.length < 4294967296 := by omega
  obtain ⟨hdr, hbuild, hhdrlen, hparse, hhdrb⟩ :
      ∃ hdr, _build_header enc rnd n body.length name ext = PRes.ok hdr ∧
        hdr.length = 14 + name.length + ext.length ∧
        _parse_header (hdr ++ body) = PRes.ok
          { flags := (if enc then FLAG_ENC else 0) ||| (if rnd then FLAG_RND else 0),
            n_lsb := n, payload_len := body.length, name := name, ext := ext,
            header_len := 14 + name.length + ext.length } ∧
        (∀ b ∈ hdr, b < 256) := by
    obtain ⟨h1, h2, h3⟩ := parse_build_header enc rnd n body.length name ext body
      (by omega) hp32 hnl hel
    refine ⟨_, h1, h2, h3, ?_⟩
    intro b hb
    simp only [List.mem_append] at hb
    rcases hb with ((((((hb | hb) | hb) | hb) | hb) | hb) | hb)
    · revert hb
      revert b
      decide
    · simp only [List.mem_cons, List.not_mem_nil, or_false] at hb
      rcases hb with rfl | rfl | rfl
      · decide
      · exact flags_lt enc rnd
      · omega
    · simp only [u32le, List.mem_cons, List.not_mem_nil, or_false] at hb
      rcases hb with rfl | rfl | rfl | rfl <;> omega
    · simp only [u16le, List.mem_cons, List.not_mem_nil, or_false] at hb
      rcases hb with rfl | rfl <;> omega
    · simp only [List.mem_singleton] at hb
      subst hb
      omega
    · exact hnameb b hb
    · exact hextb b hb
  set blob := hdr ++ body with hblobdef
  have hbloblen : blob.length = 14 + name.length + ext.length + secret.length := by
    rw [hblobdef, List.length_append, hhdrlen, hbodylen]
  have hblobb : ∀ b ∈ blob, b < 256 := by
    intro b hb
    rcases List.mem_append.mp hb with hb | hb
    · exact hhdrb b hb
    · exact hbodyb b hb
  set buf := u32be blob.length ++ blob with hbufdef
  have hu32len : (u32be blob.length).length = 4 := by simp [u32be]
  have hbuflen : buf.length = 4 + blob.length := by
    rw [hbufdef, List.length_append, hu32len]
  have hbufb : ∀ b ∈ buf, b < 256 := by
    intro b hb
    rw [hbufdef] at hb
    rcases List.mem_append.mp hb with hb | hb
    · simp only [u32be, List.mem_cons, List.not_mem_nil, or_false] at hb
      rcases hb with rfl | rfl | rfl | rfl <;> omega
    · exact hblobb b hb
  set bits := bits_from_bytes buf with hbitsdef
  have hbits01 : ∀ x ∈ bits, x ≤ 1 := bits_from_bytes_le_one buf
  have hbitslen : bits.length = 8 * buf.length := bits_from_bytes_length buf
  set s0 := start_index_from_seed samples.length
    (if rnd then seed_from_key key else 0) with hs0def
  have hs0lt : s0 < samples.length := start_index_lt _ _ hN
  have hs0mod : s0 % samples.length = s0 := Nat.mod_eq_of_lt hs0lt
  have hembits : _embed_bits_into_samples samples bits n s0
      = embedLoopF samples.length n bits.length samples bits s0 := by
    unfold _embed_bits_into_samples embedLoop
    rw [if_neg hN, hs0mod]
  have hcap2 : bits.length ≤ n * samples.length := by
    rw [hbitslen, hbuflen, hbloblen]
    calc 8 * (4 + (14 + name.length + ext.length + secret.length))
        = (4 + (14 + name.length + ext.length + secret.length)) * 8 := by ring
      _ ≤ samples.length * n := hcap
      _ = n * samples.length := by ring
  have hwritten : (_embed_bits_into_samples samples bits n s0).2 = bits.length := by
    rw [hembits]
    exact embedLoopF_written samples.length n (by omega) bits.length samples bits s0
      (le_refl _)
  have hsteglen : (_embed_bits_into_samples samples bits n s0).1.length
      = samples.length := by
    rw [hembits, embedLoopF_length]
  have hembed : embed_to_file samples secret name ext key n enc rnd
      = PRes.ok (_embed_bits_into_samples samples bits n s0).1 := by
    unfold embed_to_file
    rw [if_neg (by omega), hencbody]
    dsimp only
    rw [hbuild]
    dsimp only
    rw [← hblobdef]
    rw [if_neg (by omega)]
    unfold compute_capacity_for_file
    rw [if_neg (by omega), if_neg (by
      intro hc
      rcases Nat.mul_eq_zero.mp hc with hc | hc
      · exact hN hc
      · omega)]
    dsimp only
    rw [← hbufdef, ← hbitsdef, ← hs0def]
    rw [if_neg (by rw [hbuflen]; omega)]
    rw [if_neg (by rw [hwritten, hbitslen]; omega)]
  refine ⟨(_embed_bits_into_samples samples bits n s0).1, hembed, hsteglen, ?_⟩
  intro key2 hstart
  have hreadback : bitsRead (_embed_bits_into_samples samples bits n s0).1 n
      bits.length s0 = bits := by
    rw [hembits]
    exact embed_readback n hn1 (by omega) bits.length samples bits s0 hN hs0lt
      hbits01 (le_refl _) hcap2
  have hraw : ∀ k, k ≤ bits.length →
      _extract_bits_from_samples (_embed_bits_into_samples samples bits n s0).1 k n s0
      = bytes_from_bits (bits.take k) := by
    intro k hk
    unfold _extract_bits_from_samples
    rw [if_neg (by rw [hsteglen]; exact hN), hsteglen, hs0mod,
      bitsRead_take _ n (by omega) k bits.length s0 hk, hreadback]
  have hL32 : blob.length < 4294967296 := by omega
  have hid : bytes_from_bits bits = buf := bytes_from_bits_of_bytes buf hbufb
  have htake4 : buf.take 4 = u32be blob.length := by
    rw [hbufdef, ← hu32len, List.take_append_of_le_length (le_refl _), List.take_length]
  have hdrop4 : buf.drop 4 = blob := by
    rw [hbufdef, ← hu32len, List.drop_append_of_le_length (le_refl _), List.drop_length,
      List.nil_append]
  have hrawlen : _extract_bits_from_samples
      (_embed_bits_into_samples samples bits n s0).1 32 n s0 = u32be blob.length := by
    rw [hraw 32 (by rw [hbitslen, hbuflen]; omega)]
    rw [show (32 : Nat) = 8 * 4 from rfl,
      bytes_from_bits_take bits 4 (by rw [hbitslen, hbuflen]; omega), hid, htake4]
  have hrawall : _extract_bits_from_samples
      (_embed_bits_into_samples samples bits n s0).1 ((4 + blob.length) * 8) n s0
      = buf := by
    rw [hraw ((4 + blob.length) * 8) (by rw [hbitslen, hbuflen]; omega)]
    rw [show (4 + blob.length) * 8 = bits.length from by rw [hbitslen, hbuflen]; ring,
      List.take_length, hid]
  unfold _try_extract_with_params
  dsimp only
  rw [hsteglen, hstart, hrawlen]
  rw [if_neg (by rw [hu32len]; omega)]
  rw [u32beDec_u32be blob.length hL32]
  rw [if_neg (by omega)]
  rw [hrawall, hdrop4, List.take_length]
  rw [hparse]
  dsimp only
  rw [if_neg (by omega)]
  have hdrophdr : blob.drop (14 + name.length + ext.length) = body := by
    rw [hblobdef, ← hhdrlen, List.drop_append_of_le_length (le_refl _), List.drop_length,
      List.nil_append]
  rw [hdrophdr, hbodylen]

/-! ## The candidate search -/

/-- Candidates tried before `(n, rnd)` by `extract_to_file`, in source
order. -/
def candidatesBefore (n : Nat) (rnd : Bool) : List (Nat × Bool) :=
  candidateOrder.takeWhile (fun c => decide (c ≠ (n, rnd)))

/-- The search returns the first accepted candidate: if every candidate
before `(n, rnd)` is rejected and `(n, rnd)` is accepted, the search
result is that of `(n, rnd)`. -/
theorem extractSearch_first (samples : List Int) (key : List Nat) :
    ∀ (cands : List (Nat × Bool)) (n : Nat) (rnd : Bool) (data : List Nat) (meta : Meta),
      (∀ c ∈ cands.takeWhile (fun c => decide (c ≠ (n, rnd))),
        _try_extract_with_params samples key c.1 c.2 = PRes.ok none) →
      (n, rnd) ∈ cands →
      _try_extract_with_params samples key n rnd = PRes.ok (some (data, meta)) →
      extractSearch samples key cands = PRes.ok (data,
        { encrypted := meta.flags &&& FLAG_ENC != 0,
          randomized := meta.flags &&& FLAG_RND != 0, n_lsb := meta.n_lsb }) := by
  intro cands
  induction cands with
  | nil =>
    intro n rnd data meta hbef hmem hacc
    cases hmem
  | cons c rest ih =>
    intro n rnd data meta hbef hmem hacc
    obtain ⟨cn, crnd⟩ := c
    by_cases hc : (cn, crnd) = (n, rnd)
    · injection hc with h1 h2
      subst h1
      subst h2
      rw [extractSearch, hacc]
    · have htw : ((cn, crnd) :: rest).takeWhile (fun c => decide (c ≠ (n, rnd)))
          = (cn, crnd) :: rest.takeWhile (fun c => decide (c ≠ (n, rnd))) := by
        simp [List.takeWhile_cons, hc]
      have hrej : _try_extract_with_params samples key cn crnd = PRes.ok none := by
        have := hbef (cn, crnd) (by rw [htw]; exact List.mem_cons_self _ _)
        exact this
      rw [extractSearch, hrej]
      apply ih n rnd data meta
      · intro c2 hc2
        exact hbef c2 (by rw [htw]; exact List.mem_cons_of_mem _ hc2)
      · rcases List.mem_cons.mp hmem with hcm | hcm
        · exact absurd hcm.symm hc
        · exact hcm
      · exact hacc

/-- C1 (amended): the pipeline round trip holds at the matching search
candidate.  If the container fits the capacity and the 128 MiB extraction
gate, and every candidate tried before `(n_lsb, randomized)` in the fixed
search order is rejected on the stego samples, then extraction with the
embedding key returns exactly the embedded payload bytes, and the
reported encrypted/randomized/n_lsb flags equal the embedding
configuration.  (The claim as frozen is refuted by
`pipeline_roundtrip_cex`: an adversarial carrier can make an earlier
candidate win, so the provisos are necessary.) -/
theorem pipeline_roundtrip_amended (samples : List Int)
    (secret name ext key : List Nat) (n : Nat) (enc rnd : Bool) (stego : List Int)
    (hn1 : 1 ≤ n) (hn4 : n ≤ 4) (hkey : key ≠ [])
    (hsecb : ∀ b ∈ secret, b < 256) (hnameb : ∀ b ∈ name, b < 256)
    (hextb : ∀ b ∈ ext, b < 256) (hnl : name.length < 65536) (hel : ext.length < 256)
    (hgate : 14 + name.length + ext.length + secret.length ≤ 134217728)
    (hcap : (4 + (14 + name.length + ext.length + secret.length)) * 8
      ≤ samples.length * n)
    (hN : samples.length ≠ 0)
    (hembed : embed_to_file samples secret name ext key n enc rnd = PRes.ok stego)
    (hbefore : ∀ c ∈ candidatesBefore n rnd,
      _try_extract_with_params stego key c.1 c.2 = PRes.ok none) :
    extract_to_file stego key = PRes.ok (secret,
      { encrypted := enc, randomized := rnd, n_lsb := n }) := by
  obtain ⟨body, hencbody, hblen, hbb, hdec⟩ :
      ∃ body, (if enc then vigenere256_encrypt secret key else PRes.ok secret)
          = PRes.ok body
        ∧ body.length = secret.length ∧ (∀ b ∈ body, b < 256)
        ∧ (enc = true → vigenere256_decrypt body key = PRes.ok secret) := by
    cases enc
    · exact ⟨secret, rfl, rfl, hsecb, by intro h; cases h⟩
    · obtain ⟨body, h1, h2, h3, h4⟩ := vigenere256_encrypt_ok secret key hkey
      exact ⟨body, by simpa using h1, h2, h3, fun _ => h4 hsecb⟩
  obtain ⟨stego2, hembed2, hlen2, hext2⟩ := embed_then_extract_core samples secret body
    name ext key n enc rnd hn1 hn4 hencbody hblen hbb hnameb hextb hnl hel hgate hcap hN
  rw [hembed] at hembed2
  injection hembed2 with heq
  subst heq
  have hacc := hext2 key rfl
  have hmem : (n, rnd) ∈ candidateOrder := by
    interval_cases n <;> cases rnd <;> decide
  cases enc
  · have hbody : body = secret := by
      simp only [Bool.false_eq_true, if_false] at hencbody
      injection hencbody with h
      exact h.symm
    subst hbody
    have hflag : ((if false then FLAG_ENC else 0) |||
        (if rnd then FLAG_RND else 0)) &&& FLAG_ENC = 0 := by
      cases rnd <;> decide
    rw [if_neg (by rw [hflag]; simp)] at hacc
    have hsearch := extractSearch_first stego key candidateOrder n rnd body _ hbefore hmem hacc
    unfold extract_to_file
    rw [hsearch]
    cases rnd <;> simp [FLAG_ENC, FLAG_RND]
  · have hflag : ((if true then FLAG_ENC else 0) |||
        (if rnd then FLAG_RND else 0)) &&& FLAG_ENC ≠ 0 := by
      cases rnd <;> decide
    rw [if_pos hflag, hdec rfl] at hacc
    have hsearch := extractSearch_first stego key candidateOrder n rnd secret _ hbefore hmem hacc
    unfold extract_to_file
    rw [hsearch]
    cases rnd <;> simp [FLAG_ENC, FLAG_RND]

/-! ## Concrete artifacts for the round-trip and wrong-key claims -/

/-- Stego samples for the round-trip witness: a 200-sample zero carrier,
payload 0xAA with name "a", key "k", `n_lsb = 1`, plain, randomized. -/
def roundtripWitnessStego : List Int :=
  match embed_to_file (List.replicate 200 0) [170] [97] [] [107] 1 false true with
  | PRes.ok s => s
  | PRes.error _ => []

set_option maxRecDepth 1000000 in
set_option maxHeartbeats 16000000 in
/-- Witness for the amended C1 theorem: a concrete embed/extract round
trip through the first search candidate `(1, randomized)`. -/
theorem pipeline_roundtrip_witness :
    extract_to_file roundtripWitnessStego [107] = PRes.ok ([170],
      { encrypted := false, randomized := true, n_lsb := 1 }) :=
  pipeline_roundtrip_amended (List.replicate 200 0) [170] [97] [] [107] 1 false true
    roundtripWitnessStego (by decide) (by decide) (by decide) (by decide) (by decide)
    (by decide) (by decide) (by decide) (by decide) (by decide) (by decide)
    (by decide) (by decide)

/-- Adversarial carrier for the C1 counterexample: zeros, except that the
LSBs of samples 160..311 spell a complete fake container (length 15,
valid header, `n_lsb = 1`, payload byte 0xBB).  With key "k" the
randomized candidate `(1, true)` starts reading at
`sha256("k")[0:8] mod 350 = 160` and accepts the fake container before
the true candidate `(1, false)` is ever tried. -/
def roundtripCexCarrier : List Int :=
  List.replicate 160 0 ++
    (bits_from_bytes [0, 0, 0, 15, 83, 84, 69, 71, 1, 0, 1, 1, 0, 0, 0, 0, 0, 0, 187]).map
      (fun b => (b : Int)) ++
    List.replicate 38 0

/-- Stego samples of the C1 counterexample embedding. -/
def roundtripCexStego : List Int :=
  match embed_to_file roundtripCexCarrier [170] [] [] [107] 1 false false with
  | PRes.ok s => s
  | PRes.error _ => []

set_option maxRecDepth 1000000 in
set_option maxHeartbeats 16000000 in
/-- C1 claim artifact: the round trip fails on an adversarial carrier.
Embedding payload 0xAA (key "k", `n_lsb = 1`, plain, not randomized) into
a carrier of sufficient capacity succeeds, but extraction with the same
key returns the planted fake payload 0xBB: the `(1, randomized)`
candidate is tried first and accepted. -/
theorem pipeline_roundtrip_cex :
    embed_to_file roundtripCexCarrier [170] [] [] [107] 1 false false
      = PRes.ok roundtripCexStego ∧
    extract_to_file roundtripCexStego [107] = PRes.ok ([187],
      { encrypted := false, randomized := false, n_lsb := 1 }) ∧
    ([187] : List Nat) ≠ [170] := by
  refine ⟨by decide, by decide, by decide⟩

/-- C4 (amended): for a container embedded with `encrypted = false` and
`randomized = false`, extraction is key-independent: any key — right or
wrong — recovers exactly the original payload (provided the earlier
search candidates reject under that key), so wrong-key extraction can
silently return the correct payload. -/
theorem wrong_key_amended (samples : List Int)
    (secret name ext key key2 : List Nat) (n : Nat) (stego : List Int)
    (hn1 : 1 ≤ n) (hn4 : n ≤ 4)
    (hsecb : ∀ b ∈ secret, b < 256) (hnameb : ∀ b ∈ name, b < 256)
    (hextb : ∀ b ∈ ext, b < 256) (hnl : name.length < 65536) (hel : ext.length < 256)
    (hgate : 14 + name.length + ext.length + secret.length ≤ 134217728)
    (hcap : (4 + (14 + name.length + ext.length + secret.length)) * 8
      ≤ samples.length * n)
    (hN : samples.length ≠ 0)
    (hembed : embed_to_file samples secret name ext key n false false = PRes.ok stego)
    (hbefore : ∀ c ∈ candidatesBefore n false,
      _try_extract_with_params stego key2 c.1 c.2 = PRes.ok none) :
    extract_to_file stego key2 = PRes.ok (secret,
      { encrypted := false, randomized := false, n_lsb := n }) := by
  obtain ⟨stego2, hembed2, hlen2, hext2⟩ := embed_then_extract_core samples secret secret
    name ext key n false false hn1 hn4 rfl rfl hsecb hnameb hextb hnl hel hgate hcap hN
  rw [hembed] at hembed2
  injection hembed2 with heq
  subst heq
  have hacc := hext2 key2 (by simp)
  have hflag : ((if false then FLAG_ENC else 0) |||
      (if false then FLAG_RND else 0)) &&& FLAG_ENC = 0 := by decide
  rw [if_neg (by rw [hflag]; simp)] at hacc
  have hmem : (n, false) ∈ candidateOrder := by
    interval_cases n <;> decide
  have hsearch := extractSearch_first stego key2 candidateOrder n false secret _
    hbefore hmem hacc
  unfold extract_to_file
  rw [hsearch]
  simp [FLAG_ENC, FLAG_RND]

/-- Stego samples for the wrong-key artifacts: payload 0xAA embedded into
a zero carrier with key "k", `n_lsb = 1`, no encryption, no
randomization. -/
def wrongKeyStego : List Int :=
  match embed_to_file (List.replicate 200 0) [170] [] [] [107] 1 false false with
  | PRes.ok s => s
  | PRes.error _ => []

set_option maxRecDepth 1000000 in
set_option maxHeartbeats 16000000 in
/-- C4 claim artifact: extraction with the wrong key "j" neither raises
`ExtractError` nor returns garbage — it silently returns the exact
original payload of a plain, non-randomized container embedded with key
"k". -/
theorem wrong_key_cex :
    embed_to_file (List.replicate 200 0) [170] [] [] [107] 1 false false
      = PRes.ok wrongKeyStego ∧
    extract_to_file wrongKeyStego [106] = PRes.ok ([170],
      { encrypted := false, randomized := false, n_lsb := 1 }) ∧
    ([106] : List Nat) ≠ [107] := by
  refine ⟨by decide, by decide, by decide⟩

set_option maxRecDepth 1000000 in
set_option maxHeartbeats 16000000 in
/-- Witness for the amended C4 theorem at a concrete input (the wrong key
is "j", the embedding key "k"). -/
theorem wrong_key_witness :
    extract_to_file wrongKeyStego [106] = PRes.ok ([170],
      { encrypted := false, randomized := false, n_lsb := 1 }) :=
  wrong_key_amended (List.replicate 200 0) [170] [] [] [107] [106] 1 wrongKeyStego
    (by decide) (by decide) (by decide) (by decide) (by decide) (by decide) (by decide)
    (by decide) (by decide) (by decide) (by decide) (by decide)

/-! ## Claim C6: feasibility boundary -/

/-- C6: under valid parameters (`n_lsb` in 1..4, non-empty samples, a
non-empty key when encrypting, header fields within their struct widths),
`calculate_payload_size` reports `(4 + container length) * 8` bits,
`check_embed_feasibility` reports exactly `capacity_bits = samples * n_lsb`
and `need_bits` as above with `fits = true` iff `need_bits <=
capacity_bits` (so an exact fit has `fits = true`), and `embed_to_file`
raises `CapacityError` iff `need_bits > capacity_bits` (one bit over
capacity fails, an exact fit embeds). -/
theorem feasibility_boundary (samples : List Int) (secret name ext key : List Nat)
    (n : Nat) (enc rnd : Bool)
    (hn1 : 1 ≤ n) (hn4 : n ≤ 4) (hN : samples.length ≠ 0)
    (hkey : enc = true → key ≠ [])
    (hnl : name.length < 65536) (hel : ext.length < 256)
    (hsz : 14 + name.length + ext.length + secret.length < 4294967296) :
    calculate_payload_size secret name ext key n enc rnd =
      PRes.ok ((4 + (14 + name.length + ext.length + secret.length)) * 8) ∧
    check_embed_feasibility samples secret name ext key n enc rnd =
      { capacity_bits := samples.length * n,
        need_bits := (4 + (14 + name.length + ext.length + secret.length)) * 8,
        fits := decide ((4 + (14 + name.length + ext.length + secret.length)) * 8
          ≤ samples.length * n),
        margin_bits := (samples.length * n : Int) -
          (((4 + (14 + name.length + ext.length + secret.length)) * 8 : Nat) : Int) } ∧
    ((check_embed_feasibility samples secret name ext key n enc rnd).fits = true ↔
      (4 + (14 + name.length + ext.length + secret.length)) * 8 ≤ samples.length * n) ∧
    (embed_to_file samples secret name ext key n enc rnd = PRes.error PyErr.capacityError ↔
      samples.length * n < (4 + (14 + name.length + ext.length + secret.length)) * 8) := by
  obtain ⟨body, hbodyeq, hblen⟩ :
      ∃ body, (if enc then vigenere256_encrypt secret key else PRes.ok secret)
          = PRes.ok body ∧ body.length = secret.length := by
    cases enc
    · exact ⟨secret, rfl, rfl⟩
    · obtain ⟨body, h1, h2, _, _⟩ := vigenere256_encrypt_ok secret key (hkey rfl)
      exact ⟨body, by simpa using h1, h2⟩
  obtain ⟨hbuild, hhdrlen, _⟩ := parse_build_header enc rnd n body.length name ext []
    (by omega) (by omega) hnl hel
  set hdr := MAGIC ++ [VER, (if enc then FLAG_ENC else 0) |||
      (if rnd then FLAG_RND else 0), n] ++ u32le body.length ++
      u16le name.length ++ [ext.length] ++ name ++ ext with hhdrdef
  have hL : (hdr ++ body).length = 14 + name.length + ext.length + secret.length := by
    rw [List.length_append, hhdrlen, hblen]
  have hcapeq : compute_capacity_for_file samples n = PRes.ok (samples.length * n) := by
    unfold compute_capacity_for_file
    rw [if_neg (by omega), if_neg (by
      intro hc
      rcases Nat.mul_eq_zero.mp hc with h | h
      · exact hN h
      · omega)]
  have hneed : calculate_payload_size secret name ext key n enc rnd =
      PRes.ok ((4 + (14 + name.length + ext.length + secret.length)) * 8) := by
    unfold calculate_payload_size
    rw [hbodyeq]
    dsimp only
    rw [hbuild]
    dsimp only
    rw [hL]
  have hrep : check_embed_feasibility samples secret name ext key n enc rnd =
      { capacity_bits := samples.length * n,
        need_bits := (4 + (14 + name.length + ext.length + secret.length)) * 8,
        fits := decide ((4 + (14 + name.length + ext.length + secret.length)) * 8
          ≤ samples.length * n),
        margin_bits := (samples.length * n : Int) -
          (((4 + (14 + name.length + ext.length + secret.length)) * 8 : Nat) : Int) } := by
    unfold check_embed_feasibility
    rw [hcapeq]
    dsimp only
    rw [hneed]
    exact rfl
  refine ⟨hneed, hrep, ?_, ?_⟩
  · rw [hrep]
    show decide ((4 + (14 + name.length + ext.length + secret.length)) * 8
        ≤ samples.length * n) = true ↔ _
    simp only [decide_eq_true_eq]
  · unfold embed_to_file
    rw [if_neg (by omega), hbodyeq]
    dsimp only
    rw [hbuild]
    dsimp only
    rw [if_neg (by rw [hL]; omega), hcapeq]
    dsimp only
    have hu32len : (u32be (hdr ++ body).length ++ (hdr ++ body)).length
        = 4 + (14 + name.length + ext.length + secret.length) := by
      rw [List.length_append, hL]
      rfl
    by_cases hc : samples.length * n <
        (4 + (14 + name.length + ext.length + secret.length)) * 8
    · rw [if_pos (by rw [hu32len]; omega)]
      exact iff_of_true rfl hc
    · rw [if_neg (by rw [hu32len]; omega)]
      have hbits : (bits_from_bytes (u32be (hdr ++ body).length ++ (hdr ++ body))).length
          = (4 + (14 + name.length + ext.length + secret.length)) * 8 := by
        rw [bits_from_bytes_length, hu32len]
        omega
      have hr2 : (_embed_bits_into_samples samples
          (bits_from_bytes (u32be (hdr ++ body).length ++ (hdr ++ body))) n
          (start_index_from_seed samples.length
            (if rnd then seed_from_key key else 0))).2
          = (4 + (14 + name.length + ext.length + secret.length)) * 8 := by
        unfold _embed_bits_into_samples
        rw [if_neg hN]
        unfold embedLoop
        rw [embedLoopF_written samples.length n (by omega) _ samples _ _ (le_refl _)]
        exact hbits
      rw [if_neg (by rw [hr2, hu32len]; omega)]
      exact iff_of_false (by intro hfalse; cases hfalse) hc

set_option maxRecDepth 1000000 in
/-- Witness for the C6 boundary theorem at an exact fit: 152 samples at
`n_lsb = 1` give 152 capacity bits, the container of a 1-byte payload with
empty name and extension needs exactly (4 + 15) * 8 = 152 bits, the report
says `fits = true` and the embed does not raise `CapacityError`. -/
theorem feasibility_boundary_witness :
    calculate_payload_size [170] [] [] [107] 1 false false = PRes.ok 152 ∧
    (check_embed_feasibility (List.replicate 152 0) [170] [] [] [107] 1 false false).fits
      = true ∧
    ¬(embed_to_file (List.replicate 152 0) [170] [] [] [107] 1 false false
      = PRes.error PyErr.capacityError) := by
  obtain ⟨h1, _, h3, h4⟩ := feasibility_boundary (List.replicate 152 0) [170] [] [] [107]
    1 false false (by decide) (by decide) (by decide) (by decide) (by decide) (by decide)
    (by decide)
  exact ⟨h1, h3.mpr (by decide), fun hc => absurd (h4.mp hc) (by decide)⟩

/-! ## Claim C8: candidate acceptance in the extraction search -/

/-- A list of length at least 8 starts with 8 explicit elements. -/
theorem cons8_of_length (l : List Nat) (h : 8 ≤ l.length) :
    ∃ b0 b1 b2 b3 b4 b5 b6 b7 t,
      l = b0 :: b1 :: b2 :: b3 :: b4 :: b5 :: b6 :: b7 :: t := by
  rcases l with _ | ⟨b0, _ | ⟨b1, _ | ⟨b2, _ | ⟨b3, _ | ⟨b4, _ | ⟨b5, _ |
    ⟨b6, _ | ⟨b7, t⟩⟩⟩⟩⟩⟩⟩⟩
  · simp at h
  · simp at h
  · simp at h
  · simp at h
  · simp at h
  · simp at h
  · simp at h
  · simp at h
  · exact ⟨b0, b1, b2, b3, b4, b5, b6, b7, t, rfl⟩

/-- Packing a bit stream of length `8 * k` yields `k` bytes. -/
theorem bytes_from_bits_length8 : ∀ (k : Nat) (l : List Nat), l.length = 8 * k →
    (bytes_from_bits l).length = k := by
  intro k
  induction k with
  | zero =>
    intro l hl
    have h0 : l = [] := List.eq_nil_of_length_eq_zero (by omega)
    subst h0
    rfl
  | succ k ih =>
    intro l hl
    obtain ⟨b0, b1, b2, b3, b4, b5, b6, b7, t, rfl⟩ :=
      cons8_of_length l (by omega)
    simp only [bytes_from_bits, List.length_cons]
    rw [ih t (by simp only [List.length_cons] at hl; omega)]

/-- The 32-bit length prefix read of a candidate always yields 4 bytes. -/
theorem extract32_length (samples : List Int) (n : Nat) (hn : n ≠ 0)
    (hN : samples.length ≠ 0) (idx : Nat) :
    (_extract_bits_from_samples samples 32 n idx).length = 4 := by
  unfold _extract_bits_from_samples
  rw [if_neg hN]
  refine bytes_from_bits_length8 4 _ ?_
  unfold bitsRead
  exact bitsReadF_length samples n hn 32 32 _ (le_refl 32)

/-- Decryption with a non-empty key never raises. -/
theorem vigenere256_decrypt_ne_error (data key : List Nat) (e : PyErr)
    (hkey : key ≠ []) : vigenere256_decrypt data key ≠ PRes.error e := by
  unfold vigenere256_decrypt
  rw [if_pos (le_of_eq (_keystream_length key data.length hkey).symm)]
  intro hc
  cases hc

/-- Start position of an extraction candidate
(src/src/stego/pipeline.py, `_try_extract_with_params`): keyed when
`use_rand_start`, slot of seed 0 otherwise. -/
def candidateStart (samples : List Int) (key : List Nat) (rnd : Bool) : Nat :=
  start_index_from_seed samples.length (if rnd then seed_from_key key else 0)

/-- The 32-bit big-endian total length decoded at a candidate's start
position (src/src/stego/pipeline.py, `_try_extract_with_params`). -/
def candidateDecodedLen (samples : List Int) (key : List Nat) (n : Nat)
    (rnd : Bool) : Nat :=
  u32beDec (_extract_bits_from_samples samples 32 n (candidateStart samples key rnd))

/-- The container bytes read at a candidate's configuration: the
`total_len` bytes following the 4-byte length prefix
(src/src/stego/pipeline.py, `_try_extract_with_params`). -/
def containerReadAt (samples : List Int) (key : List Nat) (n : Nat)
    (rnd : Bool) : List Nat :=
  ((_extract_bits_from_samples samples
      ((4 + candidateDecodedLen samples key n rnd) * 8) n
      (candidateStart samples key rnd)).drop 4).take
    (candidateDecodedLen samples key n rnd)

/-- Modelled from the spec's acceptance condition for a search candidate:
parsing the header read at that candidate's configuration succeeds and
the parsed header's `n_lsb` field equals the candidate `n_lsb` used for
reading. -/
def specAccepted (samples : List Int) (key : List Nat) (n : Nat)
    (rnd : Bool) : Bool :=
  match _parse_header (containerReadAt samples key n rnd) with
  | PRes.ok meta => decide (meta.n_lsb = n)
  | PRes.error _ => false

/-- C8 (amended): a candidate is accepted iff the decoded total length
passes the gate (non-zero and at most 128 MiB) AND the header read at the
candidate's configuration parses with matching `n_lsb` — the header
cross-check alone is not equivalent to acceptance; the first accepted
candidate terminates the search with its payload and flags. -/
theorem candidate_acceptance_iff (samples : List Int) (key : List Nat)
    (n : Nat) (rnd : Bool)
    (hn1 : 1 ≤ n) (hN : samples.length ≠ 0) (hkey : key ≠ []) :
    ((∃ r, _try_extract_with_params samples key n rnd = PRes.ok (some r)) ↔
      (candidateDecodedLen samples key n rnd ≠ 0 ∧
       candidateDecodedLen samples key n rnd ≤ 134217728 ∧
       specAccepted samples key n rnd = true)) ∧
    (∀ rest data meta,
      _try_extract_with_params samples key n rnd = PRes.ok (some (data, meta)) →
      extractSearch samples key ((n, rnd) :: rest) =
        PRes.ok (data, { encrypted := meta.flags &&& FLAG_ENC != 0,
                         randomized := meta.flags &&& FLAG_RND != 0,
                         n_lsb := meta.n_lsb })) := by
  constructor
  · have h4 : ¬((_extract_bits_from_samples samples 32 n
        (start_index_from_seed samples.length
          (if rnd then seed_from_key key else 0))).length < 4) := by
      rw [extract32_length samples n (by omega) hN]
      omega
    unfold specAccepted containerReadAt candidateDecodedLen candidateStart
    unfold _try_extract_with_params
    rw [if_neg h4]
    by_cases hgate : u32beDec (_extract_bits_from_samples samples 32 n
        (start_index_from_seed samples.length
          (if rnd then seed_from_key key else 0))) = 0 ∨
        u32beDec (_extract_bits_from_samples samples 32 n
          (start_index_from_seed samples.length
            (if rnd then seed_from_key key else 0))) > 134217728
    · rw [if_pos hgate]
      apply iff_of_false
      · rintro ⟨r, hr⟩
        injection hr with h
        exact Option.noConfusion h
      · rintro ⟨h1, h2, _⟩
        rcases hgate with hg | hg
        · exact h1 hg
        · omega
    · rw [if_neg hgate]
      push_neg at hgate
      dsimp only
      split
      next e heq =>
        apply iff_of_false
        · rintro ⟨r, hr⟩
          injection hr with h
          exact Option.noConfusion h
        · rintro ⟨_, _, h3⟩
          rw [heq] at h3
          dsimp only at h3
          exact Bool.noConfusion h3
      next meta heq =>
        by_cases hnl : meta.n_lsb ≠ n
        · rw [if_pos hnl]
          apply iff_of_false
          · rintro ⟨r, hr⟩
            injection hr with h
            exact Option.noConfusion h
          · rintro ⟨_, _, h3⟩
            rw [heq] at h3
            dsimp only at h3
            exact hnl (of_decide_eq_true h3)
        · rw [if_neg hnl]
          push_neg at hnl
          by_cases henc : meta.flags &&& FLAG_ENC ≠ 0
          · rw [if_pos henc]
            split
            next e heq2 =>
              exact absurd heq2 (vigenere256_decrypt_ne_error _ key e hkey)
            next d heq2 =>
              apply iff_of_true
              · exact ⟨(d, meta), rfl⟩
              · refine ⟨hgate.1, by omega, ?_⟩
                rw [heq]
                dsimp only
                exact decide_eq_true hnl
          · rw [if_neg henc]
            apply iff_of_true
            · exact ⟨_, rfl⟩
            · refine ⟨hgate.1, by omega, ?_⟩
              rw [heq]
              dsimp only
              exact decide_eq_true hnl
  · intro rest data meta h
    simp only [extractSearch]
    rw [h]

/-- Carrier for the C8 counterexample: the first 144 sample LSBs spell a
4-byte length prefix of 268435456 (over the 128 MiB gate) followed by a
complete valid 14-byte header with `n_lsb = 1` and no flags; 6 zero
samples pad the carrier to 150 samples. -/
def c8samples : List Int :=
  (bits_from_bytes [16, 0, 0, 0, 83, 84, 69, 71, 1, 0, 1, 20, 0, 0, 0, 0, 0, 0]).map
    (fun b => (b : Int)) ++ List.replicate 6 0

/-- The pipeline header parser accepts a valid 14-byte header with empty
name and extension whatever bytes follow it. -/
theorem c8_parse (rest : List Nat) :
    _parse_header ([83, 84, 69, 71, 1, 0, 1, 20, 0, 0, 0, 0, 0, 0] ++ rest) =
      PRes.ok { flags := 0, n_lsb := 1, payload_len := 20, name := [], ext := [],
                header_len := 14 } := by
  show ((if [83, 84, 69, 71] ≠ MAGIC ∨ (1 : Nat) ≠ VER then PRes.error PyErr.valueError
      else if 14 + (0 + 256 * 0) + 0 > 14 + rest.length then PRes.error PyErr.valueError
      else PRes.ok ⟨0, 1, 20 + 256 * (0 + 256 * (0 + 256 * 0)),
        rest.take (0 + 256 * 0), (rest.drop (0 + 256 * 0)).take 0,
        14 + (0 + 256 * 0) + 0⟩ : PRes Meta))
    = PRes.ok ⟨0, 1, 20, [], [], 14⟩
  rw [if_neg (by simp [MAGIC, VER]), if_neg (by omega)]
  exact rfl

/-- A candidate whose read container parses with the candidate's `n_lsb`
satisfies the spec's acceptance condition. -/
theorem specAccepted_of (samples : List Int) (key : List Nat) (n : Nat) (rnd : Bool)
    (meta : Meta) (h : _parse_header (containerReadAt samples key n rnd) = PRes.ok meta)
    (hn : meta.n_lsb = n) : specAccepted samples key n rnd = true := by
  unfold specAccepted
  rw [h]
  exact decide_eq_true hn

set_option maxRecDepth 1000000 in
/-- The candidate start position of the counterexample carrier. -/
theorem c8_start : candidateStart c8samples [107] false = 0 := by decide

set_option maxRecDepth 1000000 in
/-- The decoded total length of the counterexample carrier. -/
theorem c8_len : candidateDecodedLen c8samples [107] 1 false = 268435456 := by decide

/-- The read loop yields exactly the requested number of bits. -/
theorem c8_bits : (bitsRead c8samples 1 ((4 + 268435456) * 8) 0).length
    = (4 + 268435456) * 8 := by
  unfold bitsRead
  exact bitsReadF_length c8samples 1 (by decide) _ _ 0 (le_refl _)

/-- The first 144 bits of the huge candidate read are the 144-bit read. -/
theorem c8_take144 : (bitsRead c8samples 1 ((4 + 268435456) * 8) 0).take 144
    = bitsRead c8samples 1 144 0 :=
  (bitsRead_take c8samples 1 (by decide) 144 ((4 + 268435456) * 8) 0
    (by norm_num)).symm

/-- The first 18 bytes of the huge candidate read are the 18-byte read. -/
theorem c8_bytes18 :
    (bytes_from_bits (bitsRead c8samples 1 ((4 + 268435456) * 8) 0)).take 18
      = bytes_from_bits (bitsRead c8samples 1 144 0) := by
  rw [← bytes_from_bits_take _ 18 (by rw [c8_bits]; norm_num)]
  rw [show (8 : Nat) * 18 = 144 from by norm_num, c8_take144]

set_option maxRecDepth 1000000 in
/-- The 18 bytes spelled by the counterexample carrier's LSBs. -/
theorem c8_val : bytes_from_bits (bitsRead c8samples 1 144 0)
    = [16, 0, 0, 0, 83, 84, 69, 71, 1, 0, 1, 20, 0, 0, 0, 0, 0, 0] := by decide

set_option maxRecDepth 1000000 in
/-- The container read at the rejected candidate starts with the planted
14-byte header. -/
theorem c8_blobtake : (containerReadAt c8samples [107] 1 false).take 14
    = [83, 84, 69, 71, 1, 0, 1, 20, 0, 0, 0, 0, 0, 0] := by
  unfold containerReadAt
  rw [c8_len, c8_start]
  unfold _extract_bits_from_samples
  rw [if_neg (by decide)]
  simp only [Nat.zero_mod]
  rw [List.take_take]
  rw [Nat.min_eq_left (by norm_num)]
  rw [List.take_drop]
  rw [show (4 : Nat) + 14 = 18 from by norm_num]
  rw [c8_bytes18, c8_val]
  decide

set_option maxRecDepth 1000000 in
/-- C8 claim artifact: at candidate `(1, not randomized)` on `c8samples`
the header read at the candidate's configuration parses successfully and
its `n_lsb` matches the candidate, yet the candidate is rejected, because
the decoded total length 268435456 exceeds the 128 MiB gate — acceptance
is not equivalent to the header cross-check. -/
theorem candidate_acceptance_cex :
    specAccepted c8samples [107] 1 false = true ∧
    candidateDecodedLen c8samples [107] 1 false = 268435456 ∧
    134217728 < candidateDecodedLen c8samples [107] 1 false ∧
    _try_extract_with_params c8samples [107] 1 false = PRes.ok none := by
  have hblob : containerReadAt c8samples [107] 1 false
      = [83, 84, 69, 71, 1, 0, 1, 20, 0, 0, 0, 0, 0, 0] ++
        (containerReadAt c8samples [107] 1 false).drop 14 := by
    conv_lhs => rw [← List.take_append_drop 14 (containerReadAt c8samples [107] 1 false)]
    rw [c8_blobtake]
  have h2 : _parse_header (containerReadAt c8samples [107] 1 false)
      = PRes.ok { flags := 0, n_lsb := 1, payload_len := 20, name := [], ext := [],
                  header_len := 14 } := by
    conv_lhs => rw [hblob]
    exact c8_parse ((containerReadAt c8samples [107] 1 false).drop 14)
  exact ⟨specAccepted_of c8samples [107] 1 false _ h2 rfl, c8_len,
    by rw [c8_len]; norm_num, by decide⟩

/-- Carrier for the C8 witness: 152 sample LSBs spelling a complete valid
15-byte container (length prefix 15, `n_lsb = 1`, payload byte 250). -/
def c8demo : List Int :=
  (bits_from_bytes [0, 0, 0, 15, 83, 84, 69, 71, 1, 0, 1, 1, 0, 0, 0, 0, 0, 0, 250]).map
    (fun b => (b : Int))

set_option maxRecDepth 1000000 in
/-- Witness for the amended C8 theorem: on `c8demo` the candidate
`(1, not randomized)` passes the length gate and the header cross-check,
and the candidate attempt indeed does not reject. -/
theorem candidate_acceptance_witness :
    (candidateDecodedLen c8demo [107] 1 false ≠ 0 ∧
     candidateDecodedLen c8demo [107] 1 false ≤ 134217728 ∧
     specAccepted c8demo [107] 1 false = true) ∧
    _try_extract_with_params c8demo [107] 1 false ≠ PRes.ok none := by
  have h := (candidate_acceptance_iff c8demo [107] 1 false (by decide) (by decide)
    (by decide)).1
  refine ⟨⟨by decide, by decide, by decide⟩, ?_⟩
  obtain ⟨r, hr⟩ := h.mpr ⟨by decide, by decide, by decide⟩
  rw [hr]
  intro hc
  injection hc with hc2
  exact Option.noConfusion hc2
